import Mathlib

/-!
Shallow embedding of the quicksort benchmark core of the pequeno_riscv
repository (`src/riscv_tests/qsort/qsort_main.c`): the iterative hybrid
quicksort `sort` with its explicit partition stack, the median-of-three
pivot selection, the strict-comparison partition scan, and the helper
`insertion_sort`.

Modelling conventions:
 * The C array `type arr[]` (with `type = int`) is modelled as a memory
   `f : Nat → Int`; offset `k` from the base pointer `arr` is index `k`.
 * The pointer-valued state variables `l`, `ir`, `i`, `j` of `sort` are
   modelled as their `Nat` offsets from `arr`.  The working subrange of a
   state `(l, ir)` is the 0-based index interval `[l-1, ir-1]`, exactly as
   in the C code (`l = arr+1`, `ir = arr+n` initially, so the initial
   subrange is `[0, n-1]`).
 * `insertion_sort` is generic in a key function `key : α → Int`; the C
   function is the instance `key = id` (`α = Int`), since the code's only
   use of the element type is the comparison `value < *(j-1)`.  The
   generic form lets stability be stated with tagged elements.
 * The partition scans `while (*i++ < a)` and `while (*(j-- - 2) > a)`
   rely on sentinel values to stay inside the working subrange; the model
   returns `none` whenever a read outside the 0-based interval
   `[l-1, ir-1]` would occur, so a `some` result certifies that every
   read of the scan was inside the subrange.
 * The outer `for(;;)` loop of `sort` is driven by the step function
   `sortStep` and a fuel-indexed runner `run`; `sort n f` uses fuel
   `n + 1`, which is proved sufficient.
 * Pointer-difference comparisons of the C code are rendered without
   `Int` subtraction: `ir - l < INSERTION_THRESHOLD` becomes
   `ir < l + INSERTION_THRESHOLD`, and `ir - i + 1 >= j - l` becomes
   `j + i ≤ ir + l + 1`; these are equivalent over ℤ.
-/

namespace PeqQsort

/-- `#define INSERTION_THRESHOLD 10` of qsort_main.c. -/
def INSERTION_THRESHOLD : Nat := 10

/-- `#define NSTACK 50` of qsort_main.c. -/
def NSTACK : Nat := 50

/-- `SWAP(a,b)` of qsort_main.c applied to the two memory cells `a` and
`b`: `temp = a; a = b; b = temp`. -/
def swapF (f : Nat → Int) (a b : Nat) : Nat → Int :=
  Function.update (Function.update f a (f b)) b (f a)

/-- `SWAP_IF_GREATER(a, b)`: `if ((a)>(b)) SWAP(a,b)`. -/
def swapIfGt (f : Nat → Int) (a b : Nat) : Nat → Int :=
  if f b < f a then swapF f a b else f

/-! ## insertion_sort

```c
static void insertion_sort(size_t n, type arr[])
{
  type *i, *j;
  type value;
  for (i = arr+1; i < arr+n; i++)
  {
    value = *i;
    j = i;
    while (value < *(j-1))
    {
      *j = *(j-1);
      if (--j == arr)
        break;
    }
    *j = value;
  }
}
```

The base pointer `arr` is the offset `b`; the cursors `i`, `j` are
offsets.  The comparison `value < *(j-1)` is `key value < key (f (j-1))`;
with `key = id` and `α = Int` this is the C code verbatim.  The guard
`0 < j` added to the inner condition is inert: the loop is entered with
`j = i ≥ b + 1 ≥ 1` and the `--j == arr` break stops it at `j = b`, so
the condition is only ever evaluated at `j > b ≥ 0`. -/

/-- The inner `while` loop of `insertion_sort`: shift elements greater
than `value` one slot to the right, returning the final memory and the
final value of `j` (the slot where `value` will be stored). -/
def insInner {α : Type*} (key : α → Int) (b : Nat) (value : α) :
    (Nat → α) → Nat → (Nat → α) × Nat := fun f j =>
  if 0 < j ∧ key value < key (f (j - 1)) then
    if j - 1 = b then (Function.update f j (f (j - 1)), b)
    else insInner key b value (Function.update f j (f (j - 1))) (j - 1)
  else (f, j)
termination_by f j => j
decreasing_by
  rename_i h _
  omega

/-- One iteration of the outer `for` loop body of `insertion_sort`:
`value = *i; j = i;` run the inner loop, then `*j = value`. -/
def insStep {α : Type*} (key : α → Int) (b : Nat) (f : Nat → α)
    (i : Nat) : Nat → α :=
  Function.update (insInner key b (f i) f i).1 (insInner key b (f i) f i).2
    (f i)

/-- The outer `for` loop of `insertion_sort`: process cursor positions
`i, i+1, …, e-1` (where `e` is the offset `arr + n`). -/
def insOuter {α : Type*} (key : α → Int) (b e : Nat) :
    (Nat → α) → Nat → (Nat → α) := fun f i =>
  if i < e then insOuter key b e (insStep key b f i) (i + 1)
  else f
termination_by f i => e - i
decreasing_by
  rename_i h
  omega

/-- `insertion_sort(n, arr)` of qsort_main.c, generic in the key
function used for comparisons; `arr` is the base offset `b`. -/
def insertion_sortK {α : Type*} (key : α → Int) (n b : Nat)
    (f : Nat → α) : Nat → α :=
  insOuter key b (b + n) f (b + 1)

/-- The C `insertion_sort` itself (`type = int`). -/
def insertion_sort (n b : Nat) (f : Nat → Int) : Nat → Int :=
  insertion_sortK id n b f

/-! ## The partition scan of `sort`

```c
      type* i = l+1;
      type* j = ir;
      type a = l[0];
      for (;;) {
        while (*i++ < a);
        while (*(j-- - 2) > a);
        if (j < i) break;
        SWAP(i[-1], j[-1]);
      }
```
-/

/-- Structural worker for the up scan, recursing on the count
`ir - i` of offsets the cursor may still visit before leaving the
working subrange. -/
def upScanGo (f : Nat → Int) (piv : Int) : Nat → Nat → Option Nat
  | _, 0 => none
  | i, cnt + 1 =>
    if f i < piv then upScanGo f piv (i + 1) cnt
    else some (i + 1)

/-- `while (*i++ < a)`: scan up from offset `i` for an element `≥ piv`,
returning the post-incremented cursor.  A read at an offset `≥ ir`
(that is, past the last index `ir - 1` of the working subrange) is
modelled as `none`. -/
def upScan (f : Nat → Int) (piv : Int) (i ir : Nat) : Option Nat :=
  upScanGo f piv i (ir - i)

/-- `upScan` satisfies the recurrence written in the C loop: fault when
the read offset `i` has left the subrange, otherwise read `f i`,
post-increment and continue while the value is `< piv`. -/
theorem upScan_unfold (f : Nat → Int) (piv : Int) (i ir : Nat) :
    upScan f piv i ir =
      if ir ≤ i then none
      else if f i < piv then upScan f piv (i + 1) ir
      else some (i + 1) := by
  unfold upScan
  rcases Nat.eq_zero_or_pos (ir - i) with h | h
  · rw [h, if_pos (by omega)]
    rfl
  · obtain ⟨cnt, hcnt⟩ : ∃ cnt, ir - i = cnt + 1 := ⟨ir - i - 1, by omega⟩
    rw [hcnt, if_neg (by omega)]
    have : ir - (i + 1) = cnt := by omega
    rw [this]
    rfl

/-- Structural worker for the down scan, recursing on the count
`j - l` of offsets the cursor may still visit. -/
def downScanGo (f : Nat → Int) (piv : Int) : Nat → Nat → Option Nat
  | _, 0 => none
  | j, cnt + 1 =>
    if piv < f (j - 2) then downScanGo f piv (j - 1) cnt
    else some (j - 1)

/-- `while (*(j-- - 2) > a)`: scan down reading offset `j - 2`,
returning the post-decremented cursor.  A read at an offset `< l - 1`
(below the first index of the working subrange) is modelled as `none`;
the read offset is `j - 2`, so the guard is `j ≤ l`. -/
def downScan (f : Nat → Int) (piv : Int) (j l : Nat) : Option Nat :=
  downScanGo f piv j (j - l)

/-- `downScan` satisfies the recurrence written in the C loop. -/
theorem downScan_unfold (f : Nat → Int) (piv : Int) (j l : Nat) :
    downScan f piv j l =
      if j ≤ l then none
      else if piv < f (j - 2) then downScan f piv (j - 1) l
      else some (j - 1) := by
  unfold downScan
  rcases Nat.eq_zero_or_pos (j - l) with h | h
  · rw [h, if_pos (by omega)]
    rfl
  · obtain ⟨cnt, hcnt⟩ : ∃ cnt, j - l = cnt + 1 := ⟨j - l - 1, by omega⟩
    rw [hcnt, if_neg (by omega)]
    have : j - 1 - l = cnt := by omega
    rw [this]
    rfl

theorem downScan_lt {f : Nat → Int} {piv : Int} {j l j' : Nat}
    (h : downScan f piv j l = some j') : j' < j := by
  induction j using Nat.strong_induction_on generalizing f with
  | _ j ih =>
    rw [downScan_unfold] at h
    split at h
    · exact absurd h (by simp)
    · split at h
      · have hj : j - 1 < j := by omega
        exact lt_trans (ih _ hj h) hj
      · simp only [Option.some.injEq] at h
        omega

/-- The innermost `for(;;)` partition loop: alternate the two scans,
swapping `i[-1]` and `j[-1]` until the cursors cross, then return the
memory and the two final cursors.  The loop needs no fuel in C — the
down cursor `j` strictly decreases every iteration and stays above `l`
— so recursion on a fuel that starts at the initial value of `j`
(maintaining `j ≤ fuel`) can never run out; the scan lemmas below prove
this. -/
def scanLoop (piv : Int) (l ir : Nat) :
    Nat → (Nat → Int) → Nat → Nat → Option ((Nat → Int) × Nat × Nat)
  | 0, _, _, _ => none
  | fuel + 1, f, i, j =>
    match upScan f piv i ir with
    | none => none
    | some i' =>
      match downScan f piv j l with
      | none => none
      | some j' =>
        if j' < i' then some (f, i', j')
        else scanLoop piv l ir fuel (swapF f (i' - 1) (j' - 1)) i' j'

/-! ## The hybrid sorter `sort` -/

/-- The branch condition `ir - l < INSERTION_THRESHOLD` of `sort`
(pointer difference rendered additively). -/
def insertionBranch (l ir : Nat) : Bool :=
  ir < l + INSERTION_THRESHOLD

/-- The length of the working subrange described by the pointer pair
`(l, ir)`: the 0-based interval `[l-1, ir-1]` has `ir + 1 - l`
elements. -/
def rlen (p : Nat × Nat) : Nat := p.2 + 1 - p.1

/-- The median-of-three pivot selection step of `sort`:
```c
      SWAP(arr[((l-arr) + (ir-arr))/2-1], l[0]);
      SWAP_IF_GREATER(l[-1], ir[-1]);
      SWAP_IF_GREATER(l[0], ir[-1]);
      SWAP_IF_GREATER(l[-1], l[0]);
```
-/
def medianStep (f : Nat → Int) (l ir : Nat) : Nat → Int :=
  let f1 := swapF f ((l + ir) / 2 - 1) l
  let f2 := swapIfGt f1 (l - 1) (ir - 1)
  let f3 := swapIfGt f2 l (ir - 1)
  swapIfGt f3 (l - 1) l

/-- The subrange pushed on the partition stack after a partition step:
`if (ir-i+1 >= j-l)` push `(i, ir)` else push `(l, j-1)` (the branch
condition rendered additively as `j + i ≤ ir + l + 1`). -/
def pushedRange (l ir i j : Nat) : Nat × Nat :=
  if j + i ≤ ir + l + 1 then (i, ir) else (l, j - 1)

/-- The subrange that `sort` continues with immediately after a
partition step (the one not pushed). -/
def continuedRange (l ir i j : Nat) : Nat × Nat :=
  if j + i ≤ ir + l + 1 then (l, j - 1) else (i, ir)

/-- The state of the outer `for(;;)` loop of `sort`: the memory, the
pointers `l` and `ir`, and the partition stack.  The C stack stores the
two pointers of a pair in the slots `stackp[-1]` (the `l`-slot) and
`stackp[0]` (the `ir`-slot); a pair is modelled as `(l-slot, ir-slot)`
and the list head is the top of the stack. -/
structure SortState where
  mem : Nat → Int
  l : Nat
  ir : Nat
  stk : List (Nat × Nat)

/-- Result of one iteration of the outer loop: `fault` when a partition
scan would read outside the working subrange, `done` when the loop
executes `break`, `next` otherwise. -/
inductive StepRes where
  | fault : StepRes
  | done (mem : Nat → Int) : StepRes
  | next (s : SortState) : StepRes

/-- One iteration of the outer `for(;;)` loop of `sort`.  In the
partition branch, `medianStep s.mem s.l s.ir` is the memory after the
median-of-three rearrangement, its value at offset `s.l` is the pivot
`a = l[0]`, and the two updates after the scan are
`l[0] = j[-1]; j[-1] = a;`. -/
def sortStep (s : SortState) : StepRes :=
  if insertionBranch s.l s.ir then
    -- insertion_sort(ir - l + 1, l - 1); pop or break
    match s.stk with
    | [] => .done (insertion_sort (s.ir + 1 - s.l) (s.l - 1) s.mem)
    | (lp, irp) :: st =>
      .next ⟨insertion_sort (s.ir + 1 - s.l) (s.l - 1) s.mem, lp, irp, st⟩
  else
    match scanLoop (medianStep s.mem s.l s.ir s.l) s.l s.ir s.ir
        (medianStep s.mem s.l s.ir) (s.l + 1) s.ir with
    | none => .fault
    | some (f', i, j) =>
      .next ⟨Function.update (Function.update f' s.l (f' (j - 1))) (j - 1)
          (medianStep s.mem s.l s.ir s.l),
        (continuedRange s.l s.ir i j).1, (continuedRange s.l s.ir i j).2,
        pushedRange s.l s.ir i j :: s.stk⟩

/-- Fuel-indexed driver of the outer loop. -/
def run : Nat → SortState → Option (Nat → Int)
  | 0, _ => none
  | fuel + 1, s =>
    match sortStep s with
    | .fault => none
    | .done m => some m
    | .next s' => run fuel s'

/-- The initial state of `sort(n, arr)`: `ir = arr+n`, `l = arr+1`,
empty stack. -/
def initState (n : Nat) (f : Nat → Int) : SortState :=
  ⟨f, 1, n, []⟩

/-- `sort(n, arr)` of qsort_main.c.  Fuel `n + 1` bounds the number of
outer-loop iterations (proved sufficient below); `none` would mean the
loop did not finish within the fuel or a scan read out of bounds. -/
def sort (n : Nat) (f : Nat → Int) : Option (Nat → Int) :=
  run (n + 1) (initState n f)

/-- Reachability along outer-loop iterations of `sort`. -/
def Reaches (s t : SortState) : Prop :=
  Relation.ReflTransGen (fun a b => sortStep a = .next b) s t

/-! ## Slices and specifications -/

/-- The list of the `n` values stored at offsets `lo, lo+1, …, lo+n-1`. -/
def sliceLen {α : Type*} (f : Nat → α) (lo n : Nat) : List α :=
  (List.range n).map fun k => f (lo + k)

/-- Full specification of an in-place sort of the index range
`[lo, lo+n)`: the range holds a permutation of what it held before, it
is non-descending, and nothing outside the range changed. -/
def SortSpec (f g : Nat → Int) (lo n : Nat) : Prop :=
  (sliceLen g lo n).Perm (sliceLen f lo n) ∧
  (∀ i j, lo ≤ i → i ≤ j → j < lo + n → g i ≤ g j) ∧
  (∀ k, k < lo ∨ lo + n ≤ k → g k = f k)

/-- What `sort` does once the current working subrange is finished:
pop a pending subrange (continuing with the given fuel) or, with an
empty stack, `break` out of the loop returning the memory. -/
def resume (fuel : Nat) (m : Nat → Int) : List (Nat × Nat) → Option (Nat → Int)
  | [] => some m
  | (lp, irp) :: st => run fuel ⟨m, lp, irp, st⟩

/-- List-level reference for one step of the insertion pass: insert `x`
into a (sorted) list just before its first element whose key is
strictly greater than the key of `x` — i.e. after every element whose
key is `≤` the key of `x`, the placement the shift-insert loop of
`insertion_sort` produces. -/
def insertL {α : Type*} (key : α → Int) (x : α) : List α → List α
  | [] => [x]
  | y :: t => if key x < key y then x :: y :: t else y :: insertL key x t

/-- List-level reference for the whole insertion pass: left-to-right
insertion with `insertL`. -/
def insSortL {α : Type*} (key : α → Int) (l : List α) : List α :=
  l.foldl (fun acc x => insertL key x acc) []

/-- The median of three values. -/
def median3 (x y z : Int) : Int :=
  max (min x y) (min (max x y) z)

/-- Pairwise-nondescending-by-key for a list. -/
def SortedK {α : Type*} (key : α → Int) (l : List α) : Prop :=
  l.Pairwise fun a b => key a ≤ key b

/-- The invariant that ties a reachable state of `sort(n, ·)` to the
logarithmic stack bound: every stacked subrange is nonempty, the
subrange stacked `d` levels above the bottom satisfies
`2^d * (len + 1) ≤ n + 1`, the current working subrange satisfies the
same bound at depth `stk.length`, and a nonempty stack forces
`11 ≤ n`. -/
def StackInv (n : Nat) (s : SortState) : Prop :=
  (∀ t (h : t < s.stk.length),
      1 ≤ rlen (s.stk[t]) ∧
      2 ^ (s.stk.length - t - 1) * (rlen (s.stk[t]) + 1) ≤ n + 1) ∧
  2 ^ s.stk.length * (rlen (s.l, s.ir) + 1) ≤ n + 1 ∧
  (s.stk ≠ [] → 11 ≤ n)

/-- A concrete eleven-element memory used to witness the theorems about
the partition branch. -/
def sampleMem : Nat → Int := fun k =>
  ((11 :: 4 :: 7 :: 1 :: 9 :: 2 :: 8 :: 3 :: 6 :: 5 :: 10 :: []).getD k 0 : Int)

/-- A concrete memory on which the partition scan of the subrange
`[0, 10]` with pivot `0` crosses in its first iteration (up cursor
stops at offset 2, down cursor at offset 1), used to witness the
partition-step theorems on concrete data. -/
def scanMem : Nat → Int := fun k =>
  ((0 :: 0 :: 5 :: 5 :: 5 :: 5 :: 5 :: 5 :: 5 :: 5 :: 7 :: []).getD k 0 : Int)

/-! ## Basic lemmas about memories, swaps and slices -/

section Basics

variable {α : Type*}

theorem swapF_left (f : Nat → Int) (a b : Nat) : swapF f a b a = f b := by
  unfold swapF
  rcases eq_or_ne a b with rfl | h
  · simp
  · rw [Function.update_noteq h, Function.update_same]

theorem swapF_right (f : Nat → Int) (a b : Nat) : swapF f a b b = f a := by
  unfold swapF
  rw [Function.update_same]

theorem swapF_other (f : Nat → Int) (a b k : Nat) (ha : k ≠ a) (hb : k ≠ b) :
    swapF f a b k = f k := by
  unfold swapF
  rw [Function.update_noteq hb, Function.update_noteq ha]

@[simp] theorem length_sliceLen (f : Nat → α) (lo n : Nat) :
    (sliceLen f lo n).length = n := by
  simp [sliceLen]

theorem getElem_sliceLen (f : Nat → α) (lo n k : Nat) (h : k < n) :
    getElem (sliceLen f lo n) k (by simpa using h) = f (lo + k) := by
  simp [sliceLen]

@[simp] theorem sliceLen_zero (f : Nat → α) (lo : Nat) :
    sliceLen f lo 0 = [] := by
  simp [sliceLen]

theorem sliceLen_succ (f : Nat → α) (lo n : Nat) :
    sliceLen f lo (n + 1) = sliceLen f lo n ++ [f (lo + n)] := by
  simp [sliceLen, List.range_succ]

theorem sliceLen_succ_cons (f : Nat → α) (lo n : Nat) :
    sliceLen f lo (n + 1) = f lo :: sliceLen f (lo + 1) n := by
  simp only [sliceLen, List.range_succ_eq_map, List.map_cons, List.map_map]
  refine congrArg₂ _ (by simp) ?_
  refine List.map_congr_left fun k _ => ?_
  simp [Function.comp, Nat.add_comm, Nat.add_assoc, Nat.add_left_comm]

theorem sliceLen_add (f : Nat → α) (lo m n : Nat) :
    sliceLen f lo (m + n) = sliceLen f lo m ++ sliceLen f (lo + m) n := by
  induction n with
  | zero => simp
  | succ n ih =>
    rw [← Nat.add_assoc, sliceLen_succ, ih, sliceLen_succ, List.append_assoc,
      Nat.add_assoc]

theorem sliceLen_congr {f g : Nat → α} {lo n : Nat}
    (h : ∀ k, lo ≤ k → k < lo + n → f k = g k) :
    sliceLen f lo n = sliceLen g lo n := by
  refine List.map_congr_left fun k hk => ?_
  rw [List.mem_range] at hk
  exact h (lo + k) (Nat.le_add_right _ _) (by omega)

theorem mem_sliceLen {f : Nat → α} {lo n : Nat} {x : α} :
    x ∈ sliceLen f lo n ↔ ∃ k, lo ≤ k ∧ k < lo + n ∧ f k = x := by
  simp only [sliceLen, List.mem_map, List.mem_range]
  constructor
  · rintro ⟨k, hk, rfl⟩
    exact ⟨lo + k, Nat.le_add_right _ _, by omega, rfl⟩
  · rintro ⟨k, h1, h2, rfl⟩
    exact ⟨k - lo, by omega, by rw [Nat.add_sub_cancel' h1]⟩

/-- Helper for the swap-permutation lemma: moving the element at
position `m` of `t` to the front while storing `x` at `m` is a
permutation of `x :: t`. -/
theorem cons_set_perm (t : List α) (m : Nat) (x : α) (h : m < t.length) :
    (t[m] :: t.set m x).Perm (x :: t) := by
  induction t generalizing m with
  | nil => simp at h
  | cons y s ih =>
    cases m with
    | zero => simpa using List.Perm.swap x y s
    | succ m =>
      have hm : m < s.length := by simpa using h
      simp only [List.getElem_cons_succ, List.set_cons_succ]
      refine (List.Perm.swap _ _ _).trans ?_
      refine (((ih m hm).cons y)).trans ?_
      exact List.Perm.swap _ _ _

/-- Writing `l[j]` at position `i` and `l[i]` at position `j` permutes
`l`. -/
theorem set_set_perm (l : List α) (i j : Nat) (hi : i < l.length)
    (hj : j < l.length) :
    ((l.set i (l[j])).set j (l[i])).Perm l := by
  induction l generalizing i j with
  | nil => simp at hi
  | cons y s ih =>
    cases i with
    | zero =>
      cases j with
      | zero => simp
      | succ j =>
        have hj' : j < s.length := by simpa using hj
        simpa using cons_set_perm s j y hj'
    | succ i =>
      cases j with
      | zero =>
        have hi' : i < s.length := by simpa using hi
        simpa using cons_set_perm s i y hi'
      | succ j =>
        have hi' : i < s.length := by simpa using hi
        have hj' : j < s.length := by simpa using hj
        simpa using (ih i j hi' hj').cons y

theorem sliceLen_swapF_eq_set (f : Nat → Int) (lo n a b : Nat)
    (ha1 : lo ≤ a) (ha2 : a < lo + n) (hb1 : lo ≤ b) (hb2 : b < lo + n) :
    sliceLen (swapF f a b) lo n =
      ((sliceLen f lo n).set (a - lo) (f b)).set (b - lo) (f a) := by
  refine List.ext_getElem (by simp) fun k hk1 hk2 => ?_
  simp only [length_sliceLen] at hk1
  rw [getElem_sliceLen _ _ _ _ hk1]
  rw [List.getElem_set, List.getElem_set]
  rcases eq_or_ne (b - lo) k with hbk | hbk
  · have hkb : lo + k = b := by omega
    simp [hbk, hkb, swapF_right]
  · rcases eq_or_ne (a - lo) k with hak | hak
    · have hka : lo + k = a := by omega
      simp [hbk, hak, hka, swapF_left]
    · have h1 : lo + k ≠ a := by omega
      have h2 : lo + k ≠ b := by omega
      simp [hbk, hak, swapF_other f a b _ h1 h2, getElem_sliceLen _ _ _ _ hk1]

theorem sliceLen_swapF_perm (f : Nat → Int) (lo n a b : Nat)
    (ha1 : lo ≤ a) (ha2 : a < lo + n) (hb1 : lo ≤ b) (hb2 : b < lo + n) :
    (sliceLen (swapF f a b) lo n).Perm (sliceLen f lo n) := by
  rw [sliceLen_swapF_eq_set f lo n a b ha1 ha2 hb1 hb2]
  have hi : a - lo < (sliceLen f lo n).length := by simp; omega
  have hj : b - lo < (sliceLen f lo n).length := by simp; omega
  have e1 : f b = (sliceLen f lo n)[b - lo] := by
    rw [getElem_sliceLen _ _ _ _ (by omega)]
    congr 1
    omega
  have e2 : f a = (sliceLen f lo n)[a - lo] := by
    rw [getElem_sliceLen _ _ _ _ (by omega)]
    congr 1
    omega
  rw [e1, e2]
  exact set_set_perm _ _ _ hi hj

theorem sliceLen_update_of_notin (f : Nat → α) (lo n a : Nat) (v : α)
    (h : a < lo ∨ lo + n ≤ a) :
    sliceLen (Function.update f a v) lo n = sliceLen f lo n :=
  sliceLen_congr fun k h1 h2 => Function.update_noteq (by omega) _ _

end Basics

/-! ## List-level facts about the insertion pass -/

section InsertList

variable {α : Type*} (key : α → Int)

theorem insertL_perm (x : α) (l : List α) :
    (insertL key x l).Perm (x :: l) := by
  induction l with
  | nil => simp [insertL]
  | cons y t ih =>
    rw [insertL]
    split
    · exact List.Perm.refl _
    · exact (ih.cons y).trans (List.Perm.swap _ _ _)

theorem mem_insertL {x z : α} {l : List α} :
    z ∈ insertL key x l ↔ z = x ∨ z ∈ l := by
  have := (insertL_perm key x l).mem_iff (a := z)
  simpa using this

theorem sortedK_insertL {x : α} {l : List α} (h : SortedK key l) :
    SortedK key (insertL key x l) := by
  induction l with
  | nil => simp [insertL, SortedK]
  | cons y t ih =>
    rw [SortedK, List.pairwise_cons] at h
    obtain ⟨hy, ht⟩ := h
    rw [insertL]
    split
    · rename_i hxy
      refine List.Pairwise.cons ?_ (List.Pairwise.cons hy ht)
      intro z hz
      rcases List.mem_cons.mp hz with rfl | hz
      · exact le_of_lt hxy
      · exact le_of_lt (lt_of_lt_of_le hxy (hy z hz))
    · rename_i hxy
      refine List.Pairwise.cons ?_ (ih ht)
      intro z hz
      rcases (mem_insertL key).mp hz with rfl | hz
      · exact le_of_not_lt hxy
      · exact hy z hz

theorem filter_insertL_pos {x : α} {c : Int} {l : List α}
    (h : SortedK key l) (hx : key x = c) :
    (insertL key x l).filter (fun y => decide (key y = c)) =
      l.filter (fun y => decide (key y = c)) ++ [x] := by
  induction l with
  | nil => simp [insertL, hx]
  | cons y t ih =>
    rw [SortedK, List.pairwise_cons] at h
    obtain ⟨hy, ht⟩ := h
    rw [insertL]
    split
    · rename_i hxy
      have hyc : ¬ (key y = c) := by omega
      have htc : ∀ z ∈ t, ¬ (key z = c) := by
        intro z hz
        have := hy z hz
        omega
      have h1 : t.filter (fun y => decide (key y = c)) = [] :=
        List.filter_eq_nil_iff.mpr (by simpa using htc)
      simp [List.filter_cons, hyc, h1, hx]
    · rw [List.filter_cons, List.filter_cons]
      split
      · rw [ih ht]
        simp
      · exact ih ht

theorem filter_insertL_neg {x : α} {c : Int} {l : List α}
    (hx : ¬ key x = c) :
    (insertL key x l).filter (fun y => decide (key y = c)) =
      l.filter (fun y => decide (key y = c)) := by
  induction l with
  | nil => simp [insertL, hx]
  | cons y t ih =>
    rw [insertL]
    split
    · simp [List.filter_cons, hx]
    · rw [List.filter_cons, List.filter_cons]
      split
      · rw [ih]
      · exact ih

theorem insSortL_append (l : List α) (x : α) :
    insSortL key (l ++ [x]) = insertL key x (insSortL key l) := by
  unfold insSortL
  rw [List.foldl_append]
  rfl

theorem insSortL_perm (l : List α) : (insSortL key l).Perm l := by
  induction l using List.reverseRecOn with
  | nil => simp [insSortL]
  | append_singleton t x ih =>
    rw [insSortL_append]
    refine ((insertL_perm key x _).trans ?_)
    refine ((ih.cons x).trans ?_)
    exact (List.perm_append_singleton x t).symm

theorem sortedK_insSortL (l : List α) : SortedK key (insSortL key l) := by
  induction l using List.reverseRecOn with
  | nil => simp [insSortL, SortedK]
  | append_singleton t x ih =>
    rw [insSortL_append]
    exact sortedK_insertL key ih

theorem filter_insSortL (l : List α) (c : Int) :
    (insSortL key l).filter (fun y => decide (key y = c)) =
      l.filter (fun y => decide (key y = c)) := by
  induction l using List.reverseRecOn with
  | nil => simp [insSortL]
  | append_singleton t x ih =>
    rw [insSortL_append]
    by_cases hx : key x = c
    · rw [filter_insertL_pos key (sortedK_insSortL key t) hx, ih,
        List.filter_append]
      simp [hx]
    · rw [filter_insertL_neg key hx, ih, List.filter_append]
      simp [hx]

/-- Where `insertL` lands when the insertion point is known: if every
element at a position `< p` fails `key x < key ·` and the element at
`p` (when present) satisfies it, `x` is inserted exactly at `p`. -/
theorem insertL_eq_take_drop (x : α) :
    ∀ (l : List α) (p : Nat), p ≤ l.length →
    (∀ q (hq : q < l.length), q < p → ¬ key x < key (l[q])) →
    (∀ hp : p < l.length, key x < key (l[p])) →
    insertL key x l = l.take p ++ x :: l.drop p := by
  intro l
  induction l with
  | nil =>
    intro p hp _ _
    have : p = 0 := by simpa using hp
    subst this
    simp [insertL]
  | cons y t ih =>
    intro p hp h1 h2
    cases p with
    | zero =>
      have := h2 (by simp)
      simp only [List.getElem_cons_zero] at this
      simp [insertL, this]
    | succ p =>
      have hy : ¬ key x < key y := by
        have := h1 0 (by simp) (Nat.succ_pos p)
        simpa using this
      rw [insertL, if_neg hy]
      rw [ih p (by simpa using hp)
        (fun q hq hqp => by
          have := h1 (q + 1) (by simpa using hq) (by omega)
          simpa using this)
        (fun hp' => by
          have := h2 (by simpa using hp')
          simpa using this)]
      simp

end InsertList

/-! ## The shift-insert loops on memories -/

section InsMem

variable {α : Type*}

/-- Complete characterisation of the inner `while` loop of
`insertion_sort`: it returns the slot `j'` with `b ≤ j' ≤ j`, leaves
everything at or below `j'` and above `j` unchanged, shifts `(j', j]`
one slot to the right, stops below an element whose key is `≤` the key
of `value` (or at the base), and shifts only elements whose keys are
strictly greater than the key of `value`. -/
theorem insInner_spec (key : α → Int) (b : Nat) (value : α) :
    ∀ j f, b + 1 ≤ j →
    b ≤ (insInner key b value f j).2 ∧
    (insInner key b value f j).2 ≤ j ∧
    (∀ k, k ≤ (insInner key b value f j).2 →
      (insInner key b value f j).1 k = f k) ∧
    (∀ k, j < k → (insInner key b value f j).1 k = f k) ∧
    (∀ k, (insInner key b value f j).2 < k → k ≤ j →
      (insInner key b value f j).1 k = f (k - 1)) ∧
    ((insInner key b value f j).2 = b ∨
      key (f ((insInner key b value f j).2 - 1)) ≤ key value) ∧
    (∀ k, (insInner key b value f j).2 ≤ k → k < j →
      key value < key (f k)) := by
  intro j
  induction j using Nat.strong_induction_on with
  | _ j ih =>
    intro f hj
    rw [insInner]
    split
    · rename_i hcond
      split
      · -- --j == arr: break with j' = b, one shift at position j = b+1
        rename_i hb
        have hjb : j = b + 1 := by omega
        subst hjb
        refine ⟨le_refl b, by omega, ?_, ?_, ?_, Or.inl rfl, ?_⟩
        · intro k hk
          exact Function.update_noteq (by omega) _ _
        · intro k hk
          exact Function.update_noteq (by omega) _ _
        · intro k hk1 hk2
          have hkb : k = b + 1 := by omega
          subst hkb
          simp
        · intro k hk1 hk2
          have : k = b := by omega
          subst this
          simpa using hcond.2
      · -- recursive case: shift at j, continue at j - 1
        rename_i hb
        have hj1 : b + 1 ≤ j - 1 := by omega
        have hlt : j - 1 < j := by omega
        obtain ⟨c1, c2, c3, c4, c5, c6, c7⟩ :=
          ih (j - 1) hlt (Function.update f j (f (j - 1))) hj1
        set r := insInner key b value (Function.update f j (f (j - 1))) (j - 1)
          with hr
        refine ⟨c1, by omega, ?_, ?_, ?_, ?_, ?_⟩
        · intro k hk
          rw [c3 k hk]
          exact Function.update_noteq (by omega) _ _
        · intro k hk
          rw [c4 k (by omega)]
          rcases eq_or_ne k j with rfl | hne
          · omega
          · exact Function.update_noteq hne _ _
        · intro k hk1 hk2
          rcases eq_or_ne k j with rfl | hne
          · rw [c4 k (by omega), Function.update_same]
          · rw [c5 k hk1 (by omega)]
            exact Function.update_noteq (by omega) _ _
        · rcases c6 with h | h
          · exact Or.inl h
          · refine Or.inr ?_
            rwa [Function.update_noteq (by omega)] at h
        · intro k hk1 hk2
          rcases eq_or_ne k (j - 1) with rfl | hne
          · simpa using hcond.2
          · have := c7 k hk1 (by omega)
            rwa [Function.update_noteq (by omega)] at this
    · -- loop condition false immediately: nothing moves
      rename_i hcond
      refine ⟨by omega, le_refl j, fun k _ => rfl, fun k _ => rfl,
        fun k h1 h2 => by omega, ?_, fun k h1 h2 => by omega⟩
      refine Or.inr ?_
      rw [Classical.not_and_iff_or_not_not] at hcond
      rcases hcond with h | h
      · omega
      · exact le_of_not_lt h

theorem sliceLen_shift_congr {f g : Nat → α} {lo n : Nat}
    (h : ∀ k, lo ≤ k → k < lo + n → g (k + 1) = f k) :
    sliceLen g (lo + 1) n = sliceLen f lo n := by
  unfold sliceLen
  refine List.map_congr_left fun k hk => ?_
  rw [List.mem_range] at hk
  have := h (lo + k) (Nat.le_add_right _ _) (by omega)
  rw [← this]
  congr 1
  omega

theorem sliceLen_take (f : Nat → α) (lo n m : Nat) (h : m ≤ n) :
    (sliceLen f lo n).take m = sliceLen f lo m := by
  obtain ⟨d, rfl⟩ := Nat.exists_eq_add_of_le h
  rw [sliceLen_add, List.take_append_of_le_length (by simp),
    List.take_of_length_le (by simp)]

theorem sliceLen_drop (f : Nat → α) (lo n m : Nat) (h : m ≤ n) :
    (sliceLen f lo n).drop m = sliceLen f (lo + m) (n - m) := by
  obtain ⟨d, rfl⟩ := Nat.exists_eq_add_of_le h
  rw [sliceLen_add, List.drop_append_of_le_length (by simp),
    List.drop_of_length_le (by simp)]
  simp

/-- Effect of one element of the insertion pass on the slice starting
at the base: inserting `f i` into the already sorted prefix. -/
theorem insStep_spec (key : α → Int) (b i : Nat) (f : Nat → α)
    (hi : b + 1 ≤ i) (hsort : SortedK key (sliceLen f b (i - b))) :
    sliceLen (insStep key b f i) b (i + 1 - b) =
      insertL key (f i) (sliceLen f b (i - b)) ∧
    (∀ k, k < b ∨ i < k → insStep key b f i k = f k) := by
  obtain ⟨c1, c2, c3, c4, c5, c6, c7⟩ := insInner_spec key b (f i) i f hi
  set j' := (insInner key b (f i) f i).2 with hj'
  have hgval : ∀ k, insStep key b f i k =
      if k = j' then f i
      else if k ≤ j' then f k
      else if k ≤ i then f (k - 1) else f k := by
    intro k
    unfold insStep
    rcases eq_or_ne k j' with rfl | hne
    · simp
    · rw [Function.update_noteq hne]
      rcases le_or_lt k j' with hk | hk
      · rw [if_neg hne, if_pos hk, c3 k hk]
      · rcases le_or_lt k i with hki | hki
        · rw [if_neg hne, if_neg (by omega), if_pos hki, c5 k hk hki]
        · rw [if_neg hne, if_neg (by omega), if_neg (by omega), c4 k hki]
  have hframe : ∀ k, k < b ∨ i < k → insStep key b f i k = f k := by
    intro k hk
    rw [hgval k]
    rcases hk with hk | hk
    · rw [if_neg (by omega), if_pos (by omega)]
    · rw [if_neg (by omega), if_neg (by omega), if_neg (by omega)]
  refine ⟨?_, hframe⟩
  -- the slice [b, i] after the step is the prefix with f i inserted at j'
  have hpair : ∀ q (hq : q < (sliceLen f b (i - b)).length),
      (sliceLen f b (i - b))[q] = f (b + q) := by
    intro q hq
    have hq' : q < i - b := by simpa using hq
    exact getElem_sliceLen f b (i - b) q hq'
  have hkey : ∀ q (hq : q < (sliceLen f b (i - b)).length), q < j' - b →
      ¬ key (f i) < key ((sliceLen f b (i - b))[q]) := by
    intro q hq hqp
    have hq' : q < i - b := by simpa using hq
    rw [hpair q hq]
    rcases c6 with hb | hle
    · omega
    · -- key (f (b + q)) ≤ key (f (j' - 1)) ≤ key (f i)
      have hj1 : j' - 1 - b < i - b := by omega
      have hmono : key (f (b + q)) ≤ key (f (j' - 1)) := by
        rcases eq_or_ne q (j' - 1 - b) with rfl | hne
        · have : b + (j' - 1 - b) = j' - 1 := by omega
          rw [this]
        · have hp := (List.pairwise_iff_getElem.mp hsort) q (j' - 1 - b)
            (by simpa using hq') (by simpa using hj1) (by omega)
          rw [hpair q hq, hpair (j' - 1 - b) (by simpa using hj1)] at hp
          have : b + (j' - 1 - b) = j' - 1 := by omega
          rwa [this] at hp
      omega
  have hkey2 : ∀ hp : j' - b < (sliceLen f b (i - b)).length,
      key (f i) < key ((sliceLen f b (i - b))[j' - b]) := by
    intro hp
    have hp' : j' - b < i - b := by simpa using hp
    rw [hpair (j' - b) hp]
    have : b + (j' - b) = j' := by omega
    rw [this]
    exact c7 j' (le_refl _) (by omega)
  rw [insertL_eq_take_drop key (f i) (sliceLen f b (i - b)) (j' - b)
    (by simp; omega) hkey hkey2]
  rw [sliceLen_take f b (i - b) (j' - b) (by omega),
    sliceLen_drop f b (i - b) (j' - b) (by omega)]
  -- both sides split at j'
  have hsplit : i + 1 - b = (j' - b) + (i + 1 - j') := by omega
  rw [hsplit, sliceLen_add]
  congr 1
  · exact sliceLen_congr fun k h1 h2 => by
      rw [hgval k, if_neg (by omega), if_pos (by omega)]
  · have hcons : i + 1 - j' = (i - j') + 1 := by omega
    rw [hcons, sliceLen_succ_cons]
    have hbj : b + (j' - b) = j' := by omega
    rw [hbj]
    congr 1
    · rw [hgval j', if_pos rfl]
    · have : i - b - (j' - b) = i - j' := by omega
      rw [this]
      refine sliceLen_shift_congr fun k h1 h2 => ?_
      rw [hgval (k + 1), if_neg (by omega), if_neg (by omega),
        if_pos (by omega)]
      simp

/-- The outer loop of the insertion pass builds, on the slice
`[b, e)`, the left-to-right list-level insertion sort of the pending
elements into the already-sorted prefix, and touches nothing outside
`[b, e)`. -/
theorem insOuter_spec (key : α → Int) (b e : Nat) :
    ∀ i f, b + 1 ≤ i → i ≤ e →
    SortedK key (sliceLen f b (i - b)) →
    (sliceLen (insOuter key b e f i) b (e - b) =
      List.foldl (fun acc x => insertL key x acc) (sliceLen f b (i - b))
        (sliceLen f i (e - i))) ∧
    (∀ k, k < b ∨ e ≤ k → insOuter key b e f i k = f k) := by
  suffices h : ∀ d i f, e - i ≤ d → b + 1 ≤ i → i ≤ e →
      SortedK key (sliceLen f b (i - b)) →
      (sliceLen (insOuter key b e f i) b (e - b) =
        List.foldl (fun acc x => insertL key x acc) (sliceLen f b (i - b))
          (sliceLen f i (e - i))) ∧
      (∀ k, k < b ∨ e ≤ k → insOuter key b e f i k = f k) by
    intro i f h1 h2 h3
    exact h (e - i) i f le_rfl h1 h2 h3
  intro d
  induction d with
  | zero =>
    intro i f hd h1 h2 h3
    have hie : i = e := by omega
    subst hie
    rw [insOuter, if_neg (lt_irrefl i)]
    exact ⟨by simp, fun k _ => rfl⟩
  | succ d ih =>
    intro i f hd h1 h2 h3
    by_cases hie : i < e
    · obtain ⟨hslice, hframe⟩ := insStep_spec key b i f h1 h3
      have hsort' : SortedK key (sliceLen (insStep key b f i) b (i + 1 - b)) := by
        rw [hslice]
        exact sortedK_insertL key h3
      obtain ⟨ih1, ih2⟩ := ih (i + 1) (insStep key b f i) (by omega)
        (by omega) (by omega) hsort'
      have hunfold : insOuter key b e f i =
          insOuter key b e (insStep key b f i) (i + 1) := by
        rw [insOuter, if_pos hie]
      constructor
      · rw [hunfold, ih1, hslice]
        have htail : sliceLen (insStep key b f i) (i + 1) (e - (i + 1)) =
            sliceLen f (i + 1) (e - (i + 1)) :=
          sliceLen_congr fun k hk1 hk2 => hframe k (Or.inr (by omega))
        rw [htail]
        have hei : e - i = (e - (i + 1)) + 1 := by omega
        rw [hei, sliceLen_succ_cons, List.foldl_cons]
      · intro k hk
        rw [hunfold, ih2 k hk]
        refine hframe k ?_
        rcases hk with hk | hk
        · exact Or.inl hk
        · exact Or.inr (by omega)
    · have hie' : i = e := by omega
      subst hie'
      rw [insOuter, if_neg (lt_irrefl i)]
      exact ⟨by simp, fun k _ => rfl⟩

/-- Full list-level description of `insertion_sort(n, arr)` (generic in
the key): the slice `[b, b+n)` becomes the list-level insertion sort of
what it held, and nothing else changes. -/
theorem insertion_sortK_spec (key : α → Int) (n b : Nat) (f : Nat → α) :
    sliceLen (insertion_sortK key n b f) b n =
      insSortL key (sliceLen f b n) ∧
    (∀ k, k < b ∨ b + n ≤ k → insertion_sortK key n b f k = f k) := by
  cases n with
  | zero =>
    unfold insertion_sortK
    rw [insOuter, if_neg (by omega)]
    exact ⟨by simp [insSortL], fun k _ => rfl⟩
  | succ m =>
    unfold insertion_sortK
    have hsing : SortedK key (sliceLen f b (b + 1 - b)) := by
      have : b + 1 - b = 1 := by omega
      rw [this]
      simp [sliceLen, SortedK, List.range_succ]
    obtain ⟨h1, h2⟩ := insOuter_spec key b (b + (m + 1)) (b + 1) f
      (le_refl _) (by omega) hsing
    refine ⟨?_, fun k hk => h2 k (by omega)⟩
    have hb1 : b + (m + 1) - b = m + 1 := by omega
    rw [hb1] at h1
    rw [h1]
    have hb2 : b + 1 - b = 1 := by omega
    have hb3 : b + (m + 1) - (b + 1) = m := by omega
    rw [hb2, hb3]
    have hcons : sliceLen f b (m + 1) = f b :: sliceLen f (b + 1) m :=
      sliceLen_succ_cons f b m
    rw [hcons]
    unfold insSortL
    rw [List.foldl_cons]
    congr 1

theorem sortedK_pointwise {key : α → Int} {g : Nat → α} {lo n : Nat}
    (h : SortedK key (sliceLen g lo n)) :
    ∀ i j, lo ≤ i → i ≤ j → j < lo + n → key (g i) ≤ key (g j) := by
  intro i j h1 h2 h3
  rcases eq_or_lt_of_le h2 with rfl | hlt
  · exact le_refl _
  · have hp := (List.pairwise_iff_getElem.mp h) (i - lo) (j - lo)
      (by simp; omega) (by simp; omega) (by omega)
    rw [getElem_sliceLen g lo n _ (by omega),
      getElem_sliceLen g lo n _ (by omega)] at hp
    have e1 : lo + (i - lo) = i := by omega
    have e2 : lo + (j - lo) = j := by omega
    rwa [e1, e2] at hp

/-- `insertion_sort(n, b)` satisfies the in-place sorting
specification of the range `[b, b+n)`. -/
theorem insertion_sort_SortSpec (n b : Nat) (f : Nat → Int) :
    SortSpec f (insertion_sort n b f) b n := by
  obtain ⟨h1, h2⟩ := insertion_sortK_spec (id : Int → Int) n b f
  refine ⟨?_, ?_, h2⟩
  · rw [insertion_sort, h1]
    exact insSortL_perm id (sliceLen f b n)
  · have hs : SortedK id (sliceLen (insertion_sort n b f) b n) := by
      rw [insertion_sort, h1]
      exact sortedK_insSortL id _
    intro i j hi hij hj
    exact sortedK_pointwise hs i j hi hij hj

end InsMem

/-! ## The partition scans -/

section Scans

theorem upScan_bounds {f : Nat → Int} {piv : Int} {ir : Nat} :
    ∀ {i i' : Nat}, upScan f piv i ir = some i' →
    i + 1 ≤ i' ∧ i' ≤ ir := by
  suffices main : ∀ n i i', ir - i ≤ n → upScan f piv i ir = some i' →
      i + 1 ≤ i' ∧ i' ≤ ir by
    intro i i' h
    exact main (ir - i) i i' le_rfl h
  intro n
  induction n with
  | zero =>
    intro i i' hle h
    rw [upScan_unfold, if_pos (by omega)] at h
    exact absurd h (by simp)
  | succ n ih =>
    intro i i' hle h
    rw [upScan_unfold] at h
    split at h
    · exact absurd h (by simp)
    · split at h
      · have := ih (i + 1) i' (by omega) h
        omega
      · simp only [Option.some.injEq] at h
        omega

theorem downScan_bounds {f : Nat → Int} {piv : Int} :
    ∀ {j l j' : Nat}, downScan f piv j l = some j' →
    l ≤ j' ∧ j' < j := by
  intro j
  induction j using Nat.strong_induction_on with
  | _ j ih =>
    intro l j' h
    rw [downScan_unfold] at h
    split at h
    · exact absurd h (by simp)
    · split at h
      · have := ih (j - 1) (by omega) h
        omega
      · simp only [Option.some.injEq] at h
        omega

theorem scanLoop_bounds {piv : Int} {l ir : Nat} :
    ∀ {fuel : Nat} {f : Nat → Int} {i j f' i' j'},
    scanLoop piv l ir fuel f i j = some (f', i', j') →
    l ≤ j' ∧ j' < i' ∧ i + 1 ≤ i' ∧ i' ≤ ir := by
  intro fuel
  induction fuel with
  | zero =>
    intro f i j f' i' j' h
    exact absurd h (by simp [scanLoop])
  | succ fuel ih =>
    intro f i j f' i' j' h
    rw [scanLoop] at h
    split at h
    · exact absurd h (by simp)
    · rename_i iu hu
      split at h
      · exact absurd h (by simp)
      · rename_i jd hd
        obtain ⟨hu1, hu2⟩ := upScan_bounds hu
        obtain ⟨hd1, hd2⟩ := downScan_bounds hd
        split at h
        · simp only [Option.some.injEq, Prod.mk.injEq] at h
          obtain ⟨-, h2, h3⟩ := h
          subst h2
          subst h3
          rename_i hlt
          exact ⟨by omega, hlt, by omega, by omega⟩
        · have := ih h
          omega

/-- Success and first-hit characterisation of the up scan: if some
element of `[i, ir)` is `≥ piv`, the scan stops at the first such
element `u`, having read only `[i, u] ⊆ [i, ir)`. -/
theorem upScan_spec {f : Nat → Int} {piv : Int} {ir : Nat} :
    ∀ {i : Nat}, i < ir → (∃ k, i ≤ k ∧ k < ir ∧ piv ≤ f k) →
    ∃ u, upScan f piv i ir = some (u + 1) ∧ i ≤ u ∧ u < ir ∧
      piv ≤ f u ∧ ∀ k, i ≤ k → k < u → f k < piv := by
  suffices main : ∀ n i, ir - i ≤ n → i < ir →
      (∃ k, i ≤ k ∧ k < ir ∧ piv ≤ f k) →
      ∃ u, upScan f piv i ir = some (u + 1) ∧ i ≤ u ∧ u < ir ∧
        piv ≤ f u ∧ ∀ k, i ≤ k → k < u → f k < piv by
    intro i h1 h2
    exact main (ir - i) i le_rfl h1 h2
  intro n
  induction n with
  | zero =>
    intro i hle hi hsent
    omega
  | succ n ih =>
    intro i hle hi hsent
    rw [upScan_unfold, if_neg (by omega)]
    by_cases hfi : f i < piv
    · rw [if_pos hfi]
      have hi1 : i + 1 < ir := by
        obtain ⟨k, hk1, hk2, hk3⟩ := hsent
        rcases eq_or_lt_of_le hk1 with rfl | h
        · omega
        · omega
      have hsent2 : ∃ k, i + 1 ≤ k ∧ k < ir ∧ piv ≤ f k := by
        obtain ⟨k, hk1, hk2, hk3⟩ := hsent
        refine ⟨k, ?_, hk2, hk3⟩
        rcases eq_or_lt_of_le hk1 with rfl | h
        · omega
        · omega
      obtain ⟨u, hu1, hu2, hu3, hu4, hu5⟩ := ih (i + 1) (by omega) hi1 hsent2
      refine ⟨u, hu1, by omega, hu3, hu4, ?_⟩
      intro k hk1 hk2
      rcases eq_or_lt_of_le hk1 with rfl | h
      · exact hfi
      · exact hu5 k h hk2
    · rw [if_neg hfi]
      exact ⟨i, rfl, le_refl i, hi, le_of_not_lt hfi,
        fun k h1 h2 => by omega⟩

/-- Success and first-hit characterisation of the down scan: if some
element of `[l, j-2]` is `≤ piv`, the scan stops at the last such
element `d`, having read only `[d, j-2] ⊆ [l, j-2]`. -/
theorem downScan_spec {f : Nat → Int} {piv : Int} {l : Nat} :
    ∀ {j : Nat}, l + 2 ≤ j → (∃ k, l ≤ k ∧ k ≤ j - 2 ∧ f k ≤ piv) →
    ∃ d, downScan f piv j l = some (d + 1) ∧ l ≤ d ∧ d ≤ j - 2 ∧
      f d ≤ piv ∧ ∀ k, d < k → k ≤ j - 2 → piv < f k := by
  intro j
  induction j using Nat.strong_induction_on with
  | _ j ih =>
    intro hj hsent
    rw [downScan_unfold, if_neg (by omega)]
    by_cases hfj : piv < f (j - 2)
    · rw [if_pos hfj]
      have hj1 : l + 2 ≤ j - 1 := by
        obtain ⟨k, hk1, hk2, hk3⟩ := hsent
        rcases eq_or_lt_of_le hk2 with rfl | h
        · omega
        · omega
      have hsent2 : ∃ k, l ≤ k ∧ k ≤ j - 1 - 2 ∧ f k ≤ piv := by
        obtain ⟨k, hk1, hk2, hk3⟩ := hsent
        refine ⟨k, hk1, ?_, hk3⟩
        rcases eq_or_lt_of_le hk2 with rfl | h
        · omega
        · omega
      obtain ⟨d, hd1, hd2, hd3, hd4, hd5⟩ := ih (j - 1) (by omega) hj1 hsent2
      refine ⟨d, hd1, hd2, by omega, hd4, ?_⟩
      intro k hk1 hk2
      rcases eq_or_ne k (j - 2) with rfl | hne
      · exact hfj
      · exact hd5 k hk1 (by omega)
    · rw [if_neg hfj]
      refine ⟨j - 2, by congr 1; omega, by omega, le_refl _,
        le_of_not_lt hfj, fun k h1 h2 => by omega⟩

/-- Unfolding of one successful iteration of the partition loop. -/
theorem scanLoop_eq_of_scans {piv : Int} {l ir fuel : Nat}
    {f : Nat → Int} {i j iu jd : Nat}
    (hu : upScan f piv i ir = some iu)
    (hd : downScan f piv j l = some jd) :
    scanLoop piv l ir (fuel + 1) f i j =
      if jd < iu then some (f, iu, jd)
      else scanLoop piv l ir fuel (swapF f (iu - 1) (jd - 1)) iu jd := by
  rw [scanLoop, hu, hd]

/-- Master invariant lemma for the partition loop.  Starting from a
state satisfying the scan invariant (growing `≤ piv` zone left of `i`,
`≥ piv` zone right of `j - 1`, the pivot value parked at `l` and
`f (l-1) ≤ piv`), the loop terminates within `j` iterations of fuel,
never faults, and produces crossed cursors `j' < i'` with the three
zones `[l-1, j'-1] ≤ piv`, `[j', i'-2] = piv`, `[i'-1, ir-1] ≥ piv`,
touching only `[l+1, ir-2]` and permuting the working subrange. -/
theorem scanLoop_spec {piv : Int} {l ir : Nat} :
    ∀ fuel (f : Nat → Int) i j, j ≤ fuel →
    l + 1 ≤ i → i ≤ ir - 1 → i ≤ j → j ≤ ir → l + 2 ≤ j →
    (∀ k, l ≤ k → k ≤ i - 1 → f k ≤ piv) →
    (∀ k, j - 1 ≤ k → k ≤ ir - 1 → piv ≤ f k) →
    f l = piv → f (l - 1) ≤ piv →
    ∃ f' i' j', scanLoop piv l ir fuel f i j = some (f', i', j') ∧
      l + 1 ≤ j' ∧ j' < i' ∧ l + 2 ≤ i' ∧ i' ≤ ir ∧
      (∀ k, l - 1 ≤ k → k ≤ j' - 1 → f' k ≤ piv) ∧
      (∀ k, j' ≤ k → k ≤ i' - 2 → f' k = piv) ∧
      (∀ k, i' - 1 ≤ k → k ≤ ir - 1 → piv ≤ f' k) ∧
      f' l = piv ∧
      (∀ k, k < l + 1 ∨ ir - 1 ≤ k → f' k = f k) ∧
      (sliceLen f' (l - 1) (ir + 1 - l)).Perm
        (sliceLen f (l - 1) (ir + 1 - l)) := by
  intro fuel
  induction fuel with
  | zero =>
    intro f i j hfuel h1 h2 h3 h4 h5
    omega
  | succ fuel ih =>
    intro f i j hfuel hA1 hA2 hA3 hA4 hA5 hZ1 hZ2 hP1 hP2
    -- the up scan: sentinel at ir - 1
    obtain ⟨u, hu, hu1, hu2, hu3, hu4⟩ :=
      @upScan_spec f piv ir i (by omega)
        ⟨ir - 1, by omega, by omega, hZ2 (ir - 1) (by omega) (by omega)⟩
    -- the down scan: sentinel at l
    obtain ⟨d, hd, hd1, hd2, hd3, hd4⟩ :=
      @downScan_spec f piv l j hA5
        ⟨l, le_refl l, by omega, le_of_eq hP1⟩
    rw [scanLoop_eq_of_scans hu hd]
    -- combined zones of f after the two scans
    have hLe : ∀ k, l ≤ k → k ≤ u - 1 → f k ≤ piv := by
      intro k hk1 hk2
      rcases le_or_lt k (i - 1) with hk | hk
      · exact hZ1 k hk1 hk
      · exact le_of_lt (hu4 k (by omega) (by omega))
    have hGe : ∀ k, d + 1 ≤ k → k ≤ ir - 1 → piv ≤ f k := by
      intro k hk1 hk2
      rcases le_or_lt (j - 1) k with hk | hk
      · exact hZ2 k hk hk2
      · exact le_of_lt (hd4 k (by omega) (by omega))
    by_cases hcross : d + 1 < u + 1
    · -- cursors crossed: partitioning complete
      rw [if_pos hcross]
      refine ⟨f, u + 1, d + 1, rfl, by omega, hcross, by omega, by omega,
        ?_, ?_, ?_, hP1, fun k _ => rfl, List.Perm.refl _⟩
      · intro k hk1 hk2
        rcases lt_or_le k l with hk | hk
        · have : k = l - 1 := by omega
          subst this
          exact hP2
        · exact hLe k hk (by omega)
      · intro k hk1 hk2
        exact le_antisymm (hLe k (by omega) (by omega))
          (hGe k (by omega) (by omega))
      · intro k hk1 hk2
        rcases eq_or_ne k u with rfl | hne
        · exact hu3
        · exact hGe k (by omega) hk2
    · -- swap f[u] and f[d], continue scanning
      rw [if_neg hcross]
      have hud : u ≤ d := by omega
      have hul : l + 1 ≤ u := by omega
      have hdir : d ≤ ir - 2 := by omega
      set f2 := swapF f (u + 1 - 1) (d + 1 - 1) with hf2
      have hsw : f2 = swapF f u d := by
        rw [hf2]
        norm_num
      have hf2u : ∀ k, k ≠ u → k ≠ d → f2 k = f k := by
        intro k hk1 hk2
        rw [hsw]
        exact swapF_other f u d k hk1 hk2
      obtain ⟨f', i', j', hrec, hB1, hB2, hB3, hB4, hC1, hC2, hC3, hC4,
          hC5, hC6⟩ :=
        ih f2 (u + 1) (d + 1) (by omega) (by omega) (by omega) (by omega)
          (by omega) (by omega)
          (by -- new left zone [l, u]
            intro k hk1 hk2
            rcases eq_or_ne k u with rfl | hne
            · rcases eq_or_ne k d with rfl | hned
              · rw [hsw, swapF_right]
                exact hd3
              · rw [hsw, swapF_left]
                exact hd3
            · rw [hf2u k hne (by omega)]
              exact hLe k hk1 (by omega))
          (by -- new right zone [d, ir-1]
            intro k hk1 hk2
            rcases eq_or_ne k d with rfl | hne
            · rw [hsw, swapF_right]
              exact hu3
            · rw [hf2u k (by omega) hne]
              exact hGe k (by omega) hk2)
          (by rw [hf2u l (by omega) (by omega)]; exact hP1)
          (by rw [hf2u (l - 1) (by omega) (by omega)]; exact hP2)
      refine ⟨f', i', j', hrec, hB1, hB2, ?_, hB4, hC1, hC2, hC3, hC4,
        ?_, ?_⟩
      · omega
      · intro k hk
        rw [hC5 k hk, hf2u k (by omega) (by omega)]
      · refine hC6.trans ?_
        rw [hsw]
        exact sliceLen_swapF_perm f (l - 1) (ir + 1 - l) u d
          (by omega) (by omega) (by omega) (by omega)

end Scans

/-! ## The median-of-three step -/

section Median

theorem swapIfGt_fst (f : Nat → Int) (a b : Nat) :
    swapIfGt f a b a = min (f a) (f b) := by
  unfold swapIfGt
  split
  · rw [swapF_left]
    rename_i h
    omega
  · rename_i h
    omega

theorem swapIfGt_snd (f : Nat → Int) (a b : Nat) :
    swapIfGt f a b b = max (f a) (f b) := by
  unfold swapIfGt
  split
  · rw [swapF_right]
    rename_i h
    omega
  · rename_i h
    omega

theorem swapIfGt_other (f : Nat → Int) (a b k : Nat) (ha : k ≠ a)
    (hb : k ≠ b) : swapIfGt f a b k = f k := by
  unfold swapIfGt
  split
  · exact swapF_other f a b k ha hb
  · rfl

theorem sliceLen_swapIfGt_perm (f : Nat → Int) (lo n a b : Nat)
    (ha1 : lo ≤ a) (ha2 : a < lo + n) (hb1 : lo ≤ b) (hb2 : b < lo + n) :
    (sliceLen (swapIfGt f a b) lo n).Perm (sliceLen f lo n) := by
  unfold swapIfGt
  split
  · exact sliceLen_swapF_perm f lo n a b ha1 ha2 hb1 hb2
  · exact List.Perm.refl _

theorem minmax_pair_perm (a b : Int) : [min a b, max a b].Perm [a, b] := by
  rcases le_total a b with h | h
  · rw [min_eq_left h, max_eq_right h]
  · rw [min_eq_right h, max_eq_left h]
    exact List.Perm.swap _ _ _

theorem max_min_median3 (x y z : Int) :
    max (min x z) (min y (max x z)) = median3 x y z := by
  simp only [median3, min_def, max_def]
  split_ifs <;> omega

/-- The values at the four positions the median-of-three step touches.
Writing `x`, `y`, `z` for the original values at the left end, the
midpoint and the right end of the working subrange and `w` for the
original value at `l`: the step parks `w` at the midpoint and leaves
`min3`, `median`, `max3` of `{x, y, z}` at `l-1`, `l`, `ir-1`. -/
theorem medianStep_reads (f : Nat → Int) (l ir : Nat) (hl : 1 ≤ l)
    (hir : l + 10 ≤ ir) :
    medianStep f l ir (l - 1) =
      min (min (f (l - 1)) (f (ir - 1)))
        (min (f ((l + ir) / 2 - 1)) (max (f (l - 1)) (f (ir - 1)))) ∧
    medianStep f l ir l =
      max (min (f (l - 1)) (f (ir - 1)))
        (min (f ((l + ir) / 2 - 1)) (max (f (l - 1)) (f (ir - 1)))) ∧
    medianStep f l ir (ir - 1) =
      max (f ((l + ir) / 2 - 1)) (max (f (l - 1)) (f (ir - 1))) ∧
    medianStep f l ir ((l + ir) / 2 - 1) = f l ∧
    (∀ k, k ≠ l - 1 → k ≠ l → k ≠ (l + ir) / 2 - 1 → k ≠ ir - 1 →
      medianStep f l ir k = f k) := by
  have hmid1 : l + 4 ≤ (l + ir) / 2 - 1 := by omega
  have hmid2 : (l + ir) / 2 - 1 ≤ ir - 6 := by omega
  set mid := (l + ir) / 2 - 1 with hmid
  set x := f (l - 1) with hx
  set y := f mid with hy
  set z := f (ir - 1) with hz
  set w := f l with hw
  unfold medianStep
  rw [← hmid]
  set f1 := swapF f mid l with hf1
  have h1a : f1 (l - 1) = x := swapF_other f mid l _ (by omega) (by omega)
  have h1b : f1 l = y := swapF_right f mid l
  have h1c : f1 (ir - 1) = z := swapF_other f mid l _ (by omega) (by omega)
  have h1d : f1 mid = w := swapF_left f mid l
  have h1e : ∀ k, k ≠ mid → k ≠ l → f1 k = f k := fun k hk1 hk2 =>
    swapF_other f mid l k hk1 hk2
  set f2 := swapIfGt f1 (l - 1) (ir - 1) with hf2
  have h2a : f2 (l - 1) = min x z := by
    rw [hf2, swapIfGt_fst, h1a, h1c]
  have h2b : f2 l = y := by
    rw [hf2, swapIfGt_other f1 _ _ _ (by omega) (by omega), h1b]
  have h2c : f2 (ir - 1) = max x z := by
    rw [hf2, swapIfGt_snd, h1a, h1c]
  have h2d : f2 mid = w := by
    rw [hf2, swapIfGt_other f1 _ _ _ (by omega) (by omega), h1d]
  have h2e : ∀ k, k ≠ l - 1 → k ≠ l → k ≠ mid → k ≠ ir - 1 → f2 k = f k :=
    fun k hk1 hk2 hk3 hk4 => by
      rw [hf2, swapIfGt_other f1 _ _ _ hk1 hk4, h1e k hk3 hk2]
  set f3 := swapIfGt f2 l (ir - 1) with hf3
  have h3a : f3 (l - 1) = min x z := by
    rw [hf3, swapIfGt_other f2 _ _ _ (by omega) (by omega), h2a]
  have h3b : f3 l = min y (max x z) := by
    rw [hf3, swapIfGt_fst, h2b, h2c]
  have h3c : f3 (ir - 1) = max y (max x z) := by
    rw [hf3, swapIfGt_snd, h2b, h2c]
  have h3d : f3 mid = w := by
    rw [hf3, swapIfGt_other f2 _ _ _ (by omega) (by omega), h2d]
  have h3e : ∀ k, k ≠ l - 1 → k ≠ l → k ≠ mid → k ≠ ir - 1 → f3 k = f k :=
    fun k hk1 hk2 hk3 hk4 => by
      rw [hf3, swapIfGt_other f2 _ _ _ hk2 hk4, h2e k hk1 hk2 hk3 hk4]
  refine ⟨?_, ?_, ?_, ?_, ?_⟩
  · rw [swapIfGt_fst, h3a, h3b]
  · rw [swapIfGt_snd, h3a, h3b]
  · rw [swapIfGt_other f3 _ _ _ (by omega) (by omega), h3c]
  · rw [swapIfGt_other f3 _ _ _ (by omega) (by omega), h3d]
  · intro k hk1 hk2 hk3 hk4
    rw [swapIfGt_other f3 _ _ _ hk1 hk2, h3e k hk1 hk2 hk3 hk4]

/-- The ordering, permutation and frame facts of the median-of-three
step needed by the partition proof and claimed in the specification. -/
theorem medianStep_spec (f : Nat → Int) (l ir : Nat) (hl : 1 ≤ l)
    (hir : l + 10 ≤ ir) :
    medianStep f l ir (l - 1) ≤ medianStep f l ir l ∧
    medianStep f l ir l ≤ medianStep f l ir (ir - 1) ∧
    medianStep f l ir l =
      median3 (f (l - 1)) (f ((l + ir) / 2 - 1)) (f (ir - 1)) ∧
    ([medianStep f l ir (l - 1), medianStep f l ir l,
        medianStep f l ir (ir - 1)]).Perm
      [f (l - 1), f ((l + ir) / 2 - 1), f (ir - 1)] ∧
    medianStep f l ir ((l + ir) / 2 - 1) = f l ∧
    (∀ k, k ≠ l - 1 → k ≠ l → k ≠ (l + ir) / 2 - 1 → k ≠ ir - 1 →
      medianStep f l ir k = f k) ∧
    (sliceLen (medianStep f l ir) (l - 1) (ir + 1 - l)).Perm
      (sliceLen f (l - 1) (ir + 1 - l)) := by
  obtain ⟨r1, r2, r3, r4, r5⟩ := medianStep_reads f l ir hl hir
  have hmid1 : l + 4 ≤ (l + ir) / 2 - 1 := by omega
  have hmid2 : (l + ir) / 2 - 1 ≤ ir - 6 := by omega
  set mid := (l + ir) / 2 - 1 with hmid
  set x := f (l - 1) with hx
  set y := f mid with hy
  set z := f (ir - 1) with hz
  refine ⟨?_, ?_, ?_, ?_, r4, r5, ?_⟩
  · rw [r1, r2]
    exact min_le_max
  · rw [r2, r3]
    refine max_le ?_ ?_
    · exact le_trans (min_le_max) (le_max_right _ _)
    · exact le_trans (min_le_left _ _) (le_max_left _ _)
  · rw [r2, max_min_median3]
  · rw [r1, r2, r3]
    refine (minmax_pair_perm _ _).append_right _ |>.trans ?_
    refine ((minmax_pair_perm y (max x z)).cons (min x z)).trans ?_
    refine (List.Perm.swap _ _ _).trans ?_
    refine ((minmax_pair_perm x z).cons y).trans ?_
    exact List.Perm.swap _ _ _
  · unfold medianStep
    rw [← hmid]
    refine List.Perm.trans
      (sliceLen_swapIfGt_perm _ _ _ (l - 1) l (by omega) (by omega)
        (by omega) (by omega)) ?_
    refine List.Perm.trans
      (sliceLen_swapIfGt_perm _ _ _ l (ir - 1) (by omega) (by omega)
        (by omega) (by omega)) ?_
    refine List.Perm.trans
      (sliceLen_swapIfGt_perm _ _ _ (l - 1) (ir - 1) (by omega) (by omega)
        (by omega) (by omega)) ?_
    exact sliceLen_swapF_perm _ _ _ mid l (by omega) (by omega) (by omega)
      (by omega)

end Median

/-! ## Composition helpers for in-place sorting of subranges -/

section Compose

/-- A property of all values of a range transfers across a slice
permutation. -/
theorem forall_slice_transfer {f g : Nat → Int} {a m : Nat}
    {P : Int → Prop}
    (hperm : (sliceLen g a m).Perm (sliceLen f a m))
    (h : ∀ k, a ≤ k → k < a + m → P (f k)) :
    ∀ k, a ≤ k → k < a + m → P (g k) := by
  intro k h1 h2
  have hmem : g k ∈ sliceLen g a m := mem_sliceLen.mpr ⟨k, h1, h2, rfl⟩
  obtain ⟨k2, hk1, hk2, hk3⟩ := mem_sliceLen.mp (hperm.mem_iff.mp hmem)
  rw [← hk3]
  exact h k2 hk1 hk2

/-- A permutation of a subrange whose complement is untouched is a
permutation of any enclosing range. -/
theorem perm_of_subperm_frame {f g : Nat → Int} {lo c a m : Nat}
    (h1 : lo ≤ a) (h2 : a + m ≤ lo + c)
    (hperm : (sliceLen g a m).Perm (sliceLen f a m))
    (hframe : ∀ k, k < a ∨ a + m ≤ k → g k = f k) :
    (sliceLen g lo c).Perm (sliceLen f lo c) := by
  have hc : c = (a - lo) + (m + (lo + c - (a + m))) := by omega
  have ha : lo + (a - lo) = a := by omega
  have hb : a + m = lo + (a - lo) + m := by omega
  rw [hc, sliceLen_add, sliceLen_add, sliceLen_add (f := f),
    sliceLen_add (f := f), ha]
  refine List.Perm.append ?_ (List.Perm.append hperm ?_)
  · have : sliceLen g lo (a - lo) = sliceLen f lo (a - lo) :=
      sliceLen_congr fun k hk1 hk2 => hframe k (Or.inl (by omega))
    rw [this]
  · have : sliceLen g (a + m) (lo + c - (a + m)) =
        sliceLen f (a + m) (lo + c - (a + m)) :=
      sliceLen_congr fun k hk1 hk2 => hframe k (Or.inr (by omega))
    rw [this]

/-- Non-descending order of the whole range from a three-zone
decomposition with the two outer zones internally sorted. -/
theorem sorted_of_zones {g : Nat → Int} {lo c jm im : Nat} {piv : Int}
    (hb1 : lo ≤ jm) (hb2 : jm < im) (hb3 : im ≤ lo + c)
    (hL : ∀ k, lo ≤ k → k < jm → g k ≤ piv)
    (hM : ∀ k, jm ≤ k → k < im → g k = piv)
    (hR : ∀ k, im ≤ k → k < lo + c → piv ≤ g k)
    (hLs : ∀ p q, lo ≤ p → p ≤ q → q < jm → g p ≤ g q)
    (hRs : ∀ p q, im ≤ p → p ≤ q → q < lo + c → g p ≤ g q) :
    ∀ p q, lo ≤ p → p ≤ q → q < lo + c → g p ≤ g q := by
  intro p q hp hpq hq
  rcases lt_or_le p jm with hpL | hpM
  · rcases lt_or_le q jm with hqL | hqM
    · exact hLs p q hp hpq hqL
    · rcases lt_or_le q im with hqMid | hqR
      · rw [hM q hqM hqMid]
        exact hL p hp hpL
      · exact le_trans (hL p hp hpL) (hR q hqR hq)
  · rcases lt_or_le p im with hpMid | hpR
    · rcases lt_or_le q im with hqMid | hqR
      · rw [hM p hpM hpMid, hM q (by omega) hqMid]
      · rw [hM p hpM hpMid]
        exact hR q hqR hq
    · exact hRs p q hpR hpq hq

end Compose

/-! ## Unfolding equations for `sortStep`, `run` and `resume` -/

section StepEqs

theorem sortStep_ins_nil (f : Nat → Int) (l ir : Nat)
    (h : insertionBranch l ir = true) :
    sortStep ⟨f, l, ir, []⟩ = .done (insertion_sort (ir + 1 - l) (l - 1) f) := by
  unfold sortStep
  rw [if_pos h]

theorem sortStep_ins_cons (f : Nat → Int) (l ir lp irp : Nat)
    (st : List (Nat × Nat)) (h : insertionBranch l ir = true) :
    sortStep ⟨f, l, ir, (lp, irp) :: st⟩ =
      .next ⟨insertion_sort (ir + 1 - l) (l - 1) f, lp, irp, st⟩ := by
  unfold sortStep
  rw [if_pos h]

theorem sortStep_part (f : Nat → Int) (l ir : Nat)
    (stk : List (Nat × Nat)) (f' : Nat → Int) (i j : Nat)
    (h : insertionBranch l ir = false)
    (hscan : scanLoop (medianStep f l ir l) l ir ir (medianStep f l ir)
      (l + 1) ir = some (f', i, j)) :
    sortStep ⟨f, l, ir, stk⟩ =
      .next ⟨Function.update (Function.update f' l (f' (j - 1))) (j - 1)
          (medianStep f l ir l),
        (continuedRange l ir i j).1, (continuedRange l ir i j).2,
        pushedRange l ir i j :: stk⟩ := by
  unfold sortStep
  rw [if_neg (by simp [h])]
  simp only [hscan]

theorem run_next {s s' : SortState} {fuel : Nat}
    (h : sortStep s = .next s') : run (fuel + 1) s = run fuel s' := by
  rw [run, h]

theorem run_done {s : SortState} {m : Nat → Int} {fuel : Nat}
    (h : sortStep s = .done m) : run (fuel + 1) s = some m := by
  rw [run, h]

theorem resume_nil (fuel : Nat) (m : Nat → Int) :
    resume fuel m [] = some m := rfl

theorem resume_cons (fuel : Nat) (m : Nat → Int) (lp irp : Nat)
    (st : List (Nat × Nat)) :
    resume fuel m ((lp, irp) :: st) = run fuel ⟨m, lp, irp, st⟩ := rfl

end StepEqs

/-! ## Assembling one partition round -/

section PartitionRound

/-- After a partition round: if `m3` carries the three zones
(`≤ piv` strictly left of the pivot slot `j'-1`, `= piv` on
`[j'-1, i'-2]`, `≥ piv` from `i'-1`), permutes the working subrange of
`f` and agrees with `f` outside it, and `g2` sorts the left and right
zones of `m3` in place (in whatever order), then `g2` is an in-place
sort of the whole working subrange of `f`. -/
theorem partition_final {f m3 g2 : Nat → Int} {l ir j' i' : Nat}
    {piv : Int} (hl : 1 ≤ l) (hj1 : l + 1 ≤ j') (hji : j' < i')
    (hii : i' ≤ ir)
    (hZL : ∀ k, l - 1 ≤ k → k < j' - 1 → m3 k ≤ piv)
    (hZM : ∀ k, j' - 1 ≤ k → k < i' - 1 → m3 k = piv)
    (hZR : ∀ k, i' - 1 ≤ k → k < ir → piv ≤ m3 k)
    (hperm3 : (sliceLen m3 (l - 1) (ir + 1 - l)).Perm
      (sliceLen f (l - 1) (ir + 1 - l)))
    (hframe3 : ∀ k, k < l - 1 ∨ ir ≤ k → m3 k = f k)
    (hpermL : (sliceLen g2 (l - 1) (j' - l)).Perm
      (sliceLen m3 (l - 1) (j' - l)))
    (hsortL : ∀ p q, l - 1 ≤ p → p ≤ q → q < l - 1 + (j' - l) →
      g2 p ≤ g2 q)
    (hpermR : (sliceLen g2 (i' - 1) (ir + 1 - i')).Perm
      (sliceLen m3 (i' - 1) (ir + 1 - i')))
    (hsortR : ∀ p q, i' - 1 ≤ p → p ≤ q → q < i' - 1 + (ir + 1 - i') →
      g2 p ≤ g2 q)
    (hmid : ∀ k, j' - 1 ≤ k → k < i' - 1 → g2 k = m3 k)
    (hframeg : ∀ k, k < l - 1 ∨ ir ≤ k → g2 k = m3 k) :
    SortSpec f g2 (l - 1) (ir + 1 - l) := by
  have hLlen : l - 1 + (j' - l) = j' - 1 := by omega
  have hRlen : i' - 1 + (ir + 1 - i') = ir := by omega
  have hc : l - 1 + (ir + 1 - l) = ir := by omega
  refine ⟨?_, ?_, ?_⟩
  · -- permutation: split both slices into the three zones
    refine List.Perm.trans ?_ hperm3
    have hsplit : ir + 1 - l = (j' - l) + ((i' - j') + (ir + 1 - i')) := by
      omega
    rw [hsplit, sliceLen_add, sliceLen_add, sliceLen_add (f := m3),
      sliceLen_add (f := m3), hLlen]
    refine List.Perm.append hpermL (List.Perm.append ?_ ?_)
    · have : sliceLen g2 (j' - 1) (i' - j') =
          sliceLen m3 (j' - 1) (i' - j') :=
        sliceLen_congr fun k hk1 hk2 => hmid k hk1 (by omega)
      rw [this]
    · have hj2 : j' - 1 + (i' - j') = i' - 1 := by omega
      rw [hj2]
      exact hpermR
  · -- sortedness via the three zones
    rw [hc]
    have hgL : ∀ k, l - 1 ≤ k → k < j' - 1 → g2 k ≤ piv := by
      have := forall_slice_transfer (P := fun v => v ≤ piv) hpermL
        (fun k hk1 hk2 => hZL k hk1 (by omega))
      intro k hk1 hk2
      exact this k hk1 (by omega)
    have hgM : ∀ k, j' - 1 ≤ k → k < i' - 1 → g2 k = piv := by
      intro k hk1 hk2
      rw [hmid k hk1 hk2]
      exact hZM k hk1 hk2
    have hgR : ∀ k, i' - 1 ≤ k → k < ir → piv ≤ g2 k := by
      have := forall_slice_transfer (P := fun v => piv ≤ v) hpermR
        (fun k hk1 hk2 => hZR k hk1 (by omega))
      intro k hk1 hk2
      exact this k hk1 (by omega)
    have := @sorted_of_zones g2 (l - 1) (ir + 1 - l) (j' - 1) (i' - 1) piv
      (by omega) (by omega) (by omega)
      (fun k hk1 hk2 => hgL k hk1 hk2)
      (fun k hk1 hk2 => hgM k hk1 hk2)
      (fun k hk1 hk2 => hgR k hk1 (by omega))
      (fun p q h1 h2 h3 => hsortL p q h1 h2 (by omega))
      (fun p q h1 h2 h3 => hsortR p q h1 h2 (by omega))
    intro p q h1 h2 h3
    exact this p q h1 h2 (by omega)
  · intro k hk
    rw [hframeg k (by omega), hframe3 k (by omega)]

end PartitionRound

/-! ## The main induction: `sort` processes each working subrange into
sorted order -/

section MainInduction

/-- Key lemma: started on any working subrange `(l, ir)` of length
`c ≥ 1` with any pending stack and fuel at least `c`, the outer loop
sorts the subrange in place (spending at most `c` fuel) and then
resumes with the stack. -/
theorem run_subrange :
    ∀ c, 1 ≤ c → ∀ l ir (f : Nat → Int) (stk : List (Nat × Nat)) fuel,
    ir + 1 - l = c → 1 ≤ l → c ≤ fuel →
    ∃ fuel' g, fuel - c ≤ fuel' ∧ SortSpec f g (l - 1) c ∧
      run fuel ⟨f, l, ir, stk⟩ = resume fuel' g stk := by
  intro c
  induction c using Nat.strong_induction_on with
  | _ c ihc =>
    intro hc l ir f stk fuel hlen hl hfuel
    obtain ⟨fuel0, rfl⟩ : ∃ fuel0, fuel = fuel0 + 1 :=
      ⟨fuel - 1, by omega⟩
    by_cases hbr : insertionBranch l ir = true
    · -- insertion-sort branch
      match stk with
      | [] =>
        refine ⟨fuel0, insertion_sort (ir + 1 - l) (l - 1) f,
          by omega, ?_, ?_⟩
        · rw [← hlen]
          exact insertion_sort_SortSpec _ _ f
        · rw [run_done (sortStep_ins_nil f l ir hbr), resume_nil]
      | (lp, irp) :: st =>
        refine ⟨fuel0, insertion_sort (ir + 1 - l) (l - 1) f,
          by omega, ?_, ?_⟩
        · rw [← hlen]
          exact insertion_sort_SortSpec _ _ f
        · rw [run_next (sortStep_ins_cons f l ir lp irp st hbr),
            resume_cons]
    · -- partition branch
      have hbr0 : insertionBranch l ir = false := by
        simpa using hbr
      have hir : l + 10 ≤ ir := by
        unfold insertionBranch INSERTION_THRESHOLD at hbr0
        simp only [decide_eq_false_iff_not, not_lt] at hbr0
        omega
      obtain ⟨M1, M2, M3, M4, M5, M6, M7⟩ := medianStep_spec f l ir hl hir
      obtain ⟨f', i', j', hscan, hB1, hB2, hB3, hB4, hC1, hC2, hC3, hC4,
          hC5, hC6⟩ :=
        @scanLoop_spec (medianStep f l ir l) l ir
          ir (medianStep f l ir) (l + 1) ir (le_refl ir) (by omega)
          (by omega) (by omega) (le_refl ir) (by omega)
          (fun k hk1 hk2 => by
            have hkl : k = l := by omega
            subst hkl
            exact le_refl _)
          (fun k hk1 hk2 => by
            have hkir : k = ir - 1 := by omega
            subst hkir
            exact M2)
          rfl M1
      obtain ⟨m3, hm3⟩ :
          ∃ m3, m3 = Function.update
            (Function.update f' l (f' (j' - 1))) (j' - 1)
            (medianStep f l ir l) := ⟨_, rfl⟩
      have hm3swap : m3 = swapF f' l (j' - 1) := by
        rw [hm3, swapF, hC4]
      have hm3read : ∀ k, k ≠ l → k ≠ j' - 1 → m3 k = f' k := by
        intro k hk1 hk2
        rw [hm3, Function.update_noteq hk2, Function.update_noteq hk1]
      have hm3l : j' - 1 ≠ l → m3 l = f' (j' - 1) := by
        intro hne
        rw [hm3, Function.update_noteq (Ne.symm hne), Function.update_same]
      have hm3j : m3 (j' - 1) = medianStep f l ir l := by
        rw [hm3, Function.update_same]
      -- the three zones of m3
      have mZL : ∀ k, l - 1 ≤ k → k < j' - 1 →
          m3 k ≤ medianStep f l ir l := by
        intro k hk1 hk2
        rcases eq_or_ne k l with rfl | hkl
        · rw [hm3l (by omega)]
          exact hC1 (j' - 1) (by omega) (le_refl _)
        · rw [hm3read k hkl (by omega)]
          exact hC1 k hk1 (by omega)
      have mZM : ∀ k, j' - 1 ≤ k → k < i' - 1 →
          m3 k = medianStep f l ir l := by
        intro k hk1 hk2
        rcases eq_or_ne k (j' - 1) with rfl | hkj
        · exact hm3j
        · rw [hm3read k (by omega) hkj]
          exact hC2 k (by omega) (by omega)
      have mZR : ∀ k, i' - 1 ≤ k → k < ir →
          medianStep f l ir l ≤ m3 k := by
        intro k hk1 hk2
        rw [hm3read k (by omega) (by omega)]
        exact hC3 k hk1 (by omega)
      have mperm3 : (sliceLen m3 (l - 1) (ir + 1 - l)).Perm
          (sliceLen f (l - 1) (ir + 1 - l)) := by
        refine List.Perm.trans ?_ (List.Perm.trans hC6 M7)
        rw [hm3swap]
        exact sliceLen_swapF_perm f' (l - 1) (ir + 1 - l) l (j' - 1)
          (by omega) (by omega) (by omega) (by omega)
      have mframe3 : ∀ k, k < l - 1 ∨ ir ≤ k → m3 k = f k := by
        intro k hk
        rw [hm3read k (by omega) (by omega), hC5 k (by omega),
          M6 k (by omega) (by omega) (by omega) (by omega)]
      -- the next state of the machine
      have hstep : sortStep ⟨f, l, ir, stk⟩ =
          .next ⟨m3, (continuedRange l ir i' j').1,
            (continuedRange l ir i' j').2,
            pushedRange l ir i' j' :: stk⟩ := by
        rw [sortStep_part f l ir stk f' i' j' hbr0 hscan, ← hm3]
      have hrun0 : run (fuel0 + 1) ⟨f, l, ir, stk⟩ =
          run fuel0 ⟨m3, (continuedRange l ir i' j').1,
            (continuedRange l ir i' j').2,
            pushedRange l ir i' j' :: stk⟩ := run_next hstep
      by_cases hbranch : j' + i' ≤ ir + l + 1
      · -- push (i', ir), continue with (l, j' - 1)
        have hcr : continuedRange l ir i' j' = (l, j' - 1) := by
          unfold continuedRange
          rw [if_pos hbranch]
        have hpr : pushedRange l ir i' j' = (i', ir) := by
          unfold pushedRange
          rw [if_pos hbranch]
        rw [hcr, hpr] at hrun0
        have hlenL : (j' - 1) + 1 - l = j' - l := by omega
        obtain ⟨fuel1, g1, hf1, hspec1, hrun1⟩ :=
          ihc (j' - l) (by omega) (by omega) l (j' - 1) m3
            ((i', ir) :: stk) fuel0 hlenL hl (by omega)
        rw [resume_cons] at hrun1
        obtain ⟨fuel2, g2, hf2, hspec2, hrun2⟩ :=
          ihc (ir + 1 - i') (by omega) (by omega) i' ir g1 stk fuel1
            rfl (by omega) (by omega)
        obtain ⟨s1p, s1s, s1f⟩ := hspec1
        obtain ⟨s2p, s2s, s2f⟩ := hspec2
        refine ⟨fuel2, g2, by omega, ?_, ?_⟩
        · rw [← hlen]
          refine partition_final hl hB1 hB2 hB4 mZL mZM mZR mperm3
            mframe3 ?_ ?_ ?_ ?_ ?_ ?_
          · -- slice g2 over the left zone
            have he : sliceLen g2 (l - 1) (j' - l) =
                sliceLen g1 (l - 1) (j' - l) :=
              sliceLen_congr fun k hk1 hk2 => s2f k (Or.inl (by omega))
            rw [he]
            exact s1p
          · intro p q h1 h2 h3
            rw [s2f p (Or.inl (by omega)), s2f q (Or.inl (by omega))]
            exact s1s p q h1 h2 h3
          · refine s2p.trans ?_
            have he : sliceLen g1 (i' - 1) (ir + 1 - i') =
                sliceLen m3 (i' - 1) (ir + 1 - i') :=
              sliceLen_congr fun k hk1 hk2 => s1f k (Or.inr (by omega))
            rw [he]
          · exact s2s
          · intro k hk1 hk2
            rw [s2f k (Or.inl (by omega)), s1f k (Or.inr (by omega))]
          · intro k hk
            rcases hk with hk | hk
            · rw [s2f k (Or.inl (by omega)), s1f k (Or.inl (by omega))]
            · rw [s2f k (Or.inr (by omega)), s1f k (Or.inr (by omega))]
        · rw [hrun0, hrun1, hrun2]
      · -- push (l, j' - 1), continue with (i', ir)
        have hcr : continuedRange l ir i' j' = (i', ir) := by
          unfold continuedRange
          rw [if_neg hbranch]
        have hpr : pushedRange l ir i' j' = (l, j' - 1) := by
          unfold pushedRange
          rw [if_neg hbranch]
        rw [hcr, hpr] at hrun0
        obtain ⟨fuel1, g1, hf1, hspec1, hrun1⟩ :=
          ihc (ir + 1 - i') (by omega) (by omega) i' ir m3
            ((l, j' - 1) :: stk) fuel0 rfl (by omega) (by omega)
        rw [resume_cons] at hrun1
        have hlenL : (j' - 1) + 1 - l = j' - l := by omega
        obtain ⟨fuel2, g2, hf2, hspec2, hrun2⟩ :=
          ihc (j' - l) (by omega) (by omega) l (j' - 1) g1 stk fuel1
            hlenL hl (by omega)
        obtain ⟨s1p, s1s, s1f⟩ := hspec1
        obtain ⟨s2p, s2s, s2f⟩ := hspec2
        refine ⟨fuel2, g2, by omega, ?_, ?_⟩
        · rw [← hlen]
          refine partition_final hl hB1 hB2 hB4 mZL mZM mZR mperm3
            mframe3 ?_ ?_ ?_ ?_ ?_ ?_
          · refine s2p.trans ?_
            have he : sliceLen g1 (l - 1) (j' - l) =
                sliceLen m3 (l - 1) (j' - l) :=
              sliceLen_congr fun k hk1 hk2 => s1f k (Or.inl (by omega))
            rw [he]
          · exact s2s
          · have he : sliceLen g2 (i' - 1) (ir + 1 - i') =
                sliceLen g1 (i' - 1) (ir + 1 - i') :=
              sliceLen_congr fun k hk1 hk2 => s2f k (Or.inr (by omega))
            rw [he]
            exact s1p
          · intro p q h1 h2 h3
            rw [s2f p (Or.inr (by omega)), s2f q (Or.inr (by omega))]
            exact s1s p q h1 h2 h3
          · intro k hk1 hk2
            rw [s2f k (Or.inr (by omega)), s1f k (Or.inl (by omega))]
          · intro k hk
            rcases hk with hk | hk
            · rw [s2f k (Or.inl (by omega)), s1f k (Or.inl (by omega))]
            · rw [s2f k (Or.inr (by omega)), s1f k (Or.inr (by omega))]
        · rw [hrun0, hrun1, hrun2]

end MainInduction

/-! ## Top-level behaviour of `sort` -/

section TopLevel

/-- `sort(n, arr)` always terminates within its fuel and sorts
`arr[0..n)` in place. -/
theorem sort_spec (n : Nat) (f : Nat → Int) :
    ∃ g, sort n f = some g ∧ SortSpec f g 0 n := by
  cases n with
  | zero =>
    refine ⟨insertion_sort 0 0 f, ?_, insertion_sort_SortSpec 0 0 f⟩
    show run 1 ⟨f, 1, 0, []⟩ = _
    rw [run_done (sortStep_ins_nil f 1 0 (by decide))]
  | succ m =>
    obtain ⟨fuel2, g, hf, hspec, hrun⟩ :=
      run_subrange (m + 1) (by omega) 1 (m + 1) f [] (m + 2) (by omega)
        (le_refl 1) (by omega)
    refine ⟨g, ?_, hspec⟩
    show run (m + 2) ⟨f, 1, m + 1, []⟩ = some g
    rw [hrun, resume_nil]

end TopLevel

/-! ## The reachable-state invariant for the partition stack -/

section StackBound

/-- Inversion of a `.next` step of the outer loop. -/
theorem sortStep_next_inv {s s' : SortState} (h : sortStep s = .next s') :
    (insertionBranch s.l s.ir = true ∧
      ∃ lp irp st, s.stk = (lp, irp) :: st ∧
        s' = ⟨insertion_sort (s.ir + 1 - s.l) (s.l - 1) s.mem,
          lp, irp, st⟩) ∨
    (insertionBranch s.l s.ir = false ∧
      ∃ f' i j, scanLoop (medianStep s.mem s.l s.ir s.l) s.l s.ir s.ir
          (medianStep s.mem s.l s.ir) (s.l + 1) s.ir = some (f', i, j) ∧
        s' = ⟨Function.update (Function.update f' s.l (f' (j - 1)))
            (j - 1) (medianStep s.mem s.l s.ir s.l),
          (continuedRange s.l s.ir i j).1,
          (continuedRange s.l s.ir i j).2,
          pushedRange s.l s.ir i j :: s.stk⟩) := by
  unfold sortStep at h
  by_cases hbr : insertionBranch s.l s.ir = true
  · rw [if_pos hbr] at h
    left
    refine ⟨hbr, ?_⟩
    split at h
    · exact absurd h (by simp)
    · rename_i lp irp st hstk
      injection h with h
      exact ⟨lp, irp, st, hstk, h.symm⟩
  · rw [if_neg hbr] at h
    right
    refine ⟨by simpa using hbr, ?_⟩
    split at h
    · exact absurd h (by simp)
    · rename_i f' i j hscan
      injection h with h
      exact ⟨f', i, j, hscan, h.symm⟩

/-- The stack invariant holds initially. -/
theorem stackInv_init (n : Nat) (f : Nat → Int) :
    StackInv n (initState n f) := by
  refine ⟨?_, ?_, ?_⟩
  · intro t h
    simp [initState] at h
  · show 2 ^ ([] : List (Nat × Nat)).length * (rlen (1, n) + 1) ≤ n + 1
    unfold rlen
    simp
  · intro h
    exact absurd rfl h

/-- One outer-loop iteration preserves the stack invariant. -/
theorem stackInv_step {n : Nat} {s s' : SortState}
    (hstep : sortStep s = .next s') (hinv : StackInv n s) :
    StackInv n s' := by
  obtain ⟨hent, hcur, hW⟩ := hinv
  rcases sortStep_next_inv hstep with
    ⟨hbr, lp, irp, st, hstk, rfl⟩ | ⟨hbr, f', i, j, hscan, rfl⟩
  · -- pop
    have hk : s.stk.length = st.length + 1 := by rw [hstk]; rfl
    refine ⟨?_, ?_, ?_⟩
    · show ∀ t (h : t < st.length), 1 ≤ rlen (st[t]) ∧
        2 ^ (st.length - t - 1) * (rlen (st[t]) + 1) ≤ n + 1
      intro t h
      have he := hent (t + 1) (by omega)
      simp only [hstk, List.getElem_cons_succ, List.length_cons] at he
      refine ⟨he.1, ?_⟩
      have h2 := he.2
      have hexp : st.length + 1 - (t + 1) - 1 = st.length - t - 1 := by omega
      rw [hexp] at h2
      exact h2
    · show 2 ^ st.length * (rlen (lp, irp) + 1) ≤ n + 1
      have he := hent 0 (by omega)
      simp only [hstk, List.getElem_cons_zero, List.length_cons] at he
      have h2 := he.2
      have hexp : st.length + 1 - 0 - 1 = st.length := by omega
      rw [hexp] at h2
      exact h2
    · show st ≠ [] → 11 ≤ n
      intro hne
      refine hW ?_
      rw [hstk]
      simp
  · -- push
    obtain ⟨hj1, hji, hi1, hi2⟩ := scanLoop_bounds hscan
    have hir : s.l + 10 ≤ s.ir := by
      unfold insertionBranch INSERTION_THRESHOLD at hbr
      simp only [decide_eq_false_iff_not, not_lt] at hbr
      omega
    have hp : 11 ≤ rlen (s.l, s.ir) := by
      unfold rlen
      simp only
      omega
    have hn11 : 11 ≤ n := by
      have h1 : rlen (s.l, s.ir) + 1 ≤
          2 ^ s.stk.length * (rlen (s.l, s.ir) + 1) :=
        Nat.le_mul_of_pos_left _ (Nat.pos_pow_of_pos _ (by omega))
      omega
    have hpr : 1 ≤ rlen (pushedRange s.l s.ir i j) ∧
        rlen (pushedRange s.l s.ir i j) + 1 ≤ rlen (s.l, s.ir) := by
      unfold pushedRange rlen
      split <;> simp only <;> omega
    have hcr : 2 * (rlen (continuedRange s.l s.ir i j) + 1) ≤
        rlen (s.l, s.ir) + 1 := by
      unfold continuedRange rlen
      split <;> simp only <;> omega
    refine ⟨?_, ?_, ?_⟩
    · show ∀ t (h : t < (pushedRange s.l s.ir i j :: s.stk).length),
        1 ≤ rlen ((pushedRange s.l s.ir i j :: s.stk)[t]) ∧
        2 ^ ((pushedRange s.l s.ir i j :: s.stk).length - t - 1) *
          (rlen ((pushedRange s.l s.ir i j :: s.stk)[t]) + 1) ≤ n + 1
      intro t h
      simp only [List.length_cons] at h
      match t with
      | 0 =>
        simp only [List.getElem_cons_zero, List.length_cons]
        refine ⟨hpr.1, ?_⟩
        have he : s.stk.length + 1 - 0 - 1 = s.stk.length := by omega
        rw [he]
        calc 2 ^ s.stk.length * (rlen (pushedRange s.l s.ir i j) + 1)
            ≤ 2 ^ s.stk.length * (rlen (s.l, s.ir) + 1) :=
              Nat.mul_le_mul_left _ (by omega)
          _ ≤ n + 1 := hcur
      | t + 1 =>
        simp only [List.getElem_cons_succ, List.length_cons]
        have he := hent t (by omega)
        refine ⟨he.1, ?_⟩
        have hexp : s.stk.length + 1 - (t + 1) - 1 =
            s.stk.length - t - 1 := by omega
        rw [hexp]
        exact he.2
    · show 2 ^ (pushedRange s.l s.ir i j :: s.stk).length *
        (rlen (continuedRange s.l s.ir i j) + 1) ≤ n + 1
      simp only [List.length_cons]
      calc 2 ^ (s.stk.length + 1) *
            (rlen (continuedRange s.l s.ir i j) + 1)
          = 2 ^ s.stk.length *
            (2 * (rlen (continuedRange s.l s.ir i j) + 1)) := by ring
        _ ≤ 2 ^ s.stk.length * (rlen (s.l, s.ir) + 1) :=
            Nat.mul_le_mul_left _ hcr
        _ ≤ n + 1 := hcur
    · intro _
      exact hn11

/-- Every reachable state of a run of `sort(n, ·)` satisfies the stack
invariant. -/
theorem stackInv_reach {n : Nat} {f : Nat → Int} {s : SortState}
    (h : Reaches (initState n f) s) : StackInv n s := by
  induction h with
  | refl => exact stackInv_init n f
  | tail h1 h2 ih => exact stackInv_step h2 ih


/-- The number of pairs on the partition stack of any reachable state
is at most `⌈log₂ n⌉`: the topmost stacked pair was pushed above
`k - 1` others, so the invariant gives `2^(k-1) · (len+1) ≤ n + 1`
with `len ≥ 1`, hence `2^k ≤ n + 1`, which forces `k ≤ ⌈log₂ n⌉`. -/
theorem stack_pairs_le_clog {n : Nat} {f : Nat → Int} {s : SortState}
    (hn : 1 ≤ n) (h : Reaches (initState n f) s) :
    s.stk.length ≤ Nat.clog 2 n := by
  obtain ⟨hent, hcur, hW⟩ := stackInv_reach h
  rcases Nat.eq_zero_or_pos s.stk.length with h0 | hpos
  · rw [h0]
    exact Nat.zero_le _
  · have hn11 : 11 ≤ n := hW (by
      intro hnil
      rw [hnil] at hpos
      simp at hpos)
    obtain ⟨hlen1, hbound⟩ := hent 0 hpos
    have hexp : s.stk.length - 0 - 1 = s.stk.length - 1 := by omega
    rw [hexp] at hbound
    have h2k : 2 ^ s.stk.length ≤ n + 1 := by
      have hmul : 2 ^ (s.stk.length - 1) * 2 ≤
          2 ^ (s.stk.length - 1) * (rlen (s.stk[0]) + 1) :=
        Nat.mul_le_mul_left _ (by omega)
      have hpow : 2 ^ s.stk.length = 2 ^ (s.stk.length - 1) * 2 := by
        rw [← pow_succ]
        congr 1
        omega
      omega
    by_contra hgt
    push_neg at hgt
    have hclog : n ≤ 2 ^ Nat.clog 2 n := Nat.le_pow_clog one_lt_two n
    have hmono : 2 ^ (Nat.clog 2 n + 1) ≤ 2 ^ s.stk.length :=
      Nat.pow_le_pow_right (by omega) (by omega)
    have hsucc : 2 ^ (Nat.clog 2 n + 1) = 2 ^ Nat.clog 2 n * 2 :=
      pow_succ 2 _
    have hposc : 0 < 2 ^ Nat.clog 2 n := Nat.pos_pow_of_pos _ (by omega)
    omega

end StackBound






/-! ## The claims -/

section Claims

/-- C1: for every length `n` and every integer memory `arr`,
`sort(n, arr)` succeeds and afterwards `arr[0..n)` is in
non-descending order (`∀ i ≤ j < n, arr[i] ≤ arr[j]`), the resulting
range is a permutation of the input range — the output multiset
equals the input multiset, so no elements are created or lost and
duplicates keep their multiplicity — and every cell at index `≥ n` is
untouched: the sort works in place on the given memory (the model
mutates only the caller's cells and builds no second array; the frame
conjunct certifies that nothing outside `[0, n)` is written). -/
theorem C1_sort_correct (n : Nat) (f : Nat → Int) :
    ∃ g, sort n f = some g ∧
      (∀ i j, i ≤ j → j < n → g i ≤ g j) ∧
      (sliceLen g 0 n).Perm (sliceLen f 0 n) ∧
      (∀ k, n ≤ k → g k = f k) := by
  obtain ⟨g, h1, hperm, hsort, hframe⟩ := sort_spec n f
  exact ⟨g, h1, fun i j hij hj => hsort i j (Nat.zero_le i) hij (by omega),
    hperm, fun k hk => hframe k (Or.inr (by omega))⟩

/-- C2 (counterexample): the claimed routing rule fails on the
working subrange `(l, ir) = (1, 10)` — the 0-based subrange `[0, 9]`
of length `rlen (1, 10) = 10`.  Its length is not strictly less than
`INSERTION_THRESHOLD = 10`, yet the code's branch condition
`ir - l < INSERTION_THRESHOLD` (i.e. `10 - 1 < 10`) is true, so the
Insertion Pass runs on this length-10 subrange instead of the
partition step the claim requires. -/
theorem C2_counterexample :
    ¬ ((insertionBranch 1 10 = true) ↔
        rlen (1, 10) < INSERTION_THRESHOLD) := by
  decide

/-- C2 (amended): the Hybrid Sorter runs the Insertion Pass on the
current working subrange `(l, ir)` iff the subrange length
`r - l + 1 = rlen (l, ir)` is at most `INSERTION_THRESHOLD = 10` —
the code tests `ir - l < INSERTION_THRESHOLD`, i.e. length − 1 < 10;
every subrange of length 11 or more is partitioned instead. -/
theorem C2_insertion_iff (l ir : Nat) :
    insertionBranch l ir = true ↔ rlen (l, ir) ≤ INSERTION_THRESHOLD := by
  unfold insertionBranch rlen INSERTION_THRESHOLD
  simp only [decide_eq_true_eq]
  omega

/-- C3: in every state reachable along outer-loop iterations of
`sort(n, arr)` with `n ≥ 1`, for every input ordering, the number of
`(l, ir)` pairs held on the partition stack is at most `⌈log₂ n⌉`
(`Nat.clog 2 n`); equivalently the number of stored pointers — two
per pair — is at most `2⌈log₂ n⌉`. -/
theorem C3_stack_depth (n : Nat) (f : Nat → Int) (s : SortState)
    (hn : 1 ≤ n) (h : Reaches (initState n f) s) :
    s.stk.length ≤ Nat.clog 2 n ∧
    2 * s.stk.length ≤ 2 * Nat.clog 2 n := by
  have hb := stack_pairs_le_clog hn h
  exact ⟨hb, by omega⟩

theorem C3_stack_depth_witness :
    1 ≤ 1 ∧
    ((initState 1 sampleMem).stk.length ≤ Nat.clog 2 1 ∧
      2 * (initState 1 sampleMem).stk.length ≤ 2 * Nat.clog 2 1) :=
  ⟨le_refl 1, C3_stack_depth 1 sampleMem (initState 1 sampleMem)
    (le_refl 1) Relation.ReflTransGen.refl⟩

/-- C4: whenever the partition scan of a working subrange `(l, ir)`
completes with final cursors `(i, j)`, the subrange the code pushes
onto the partition stack (`pushedRange`, selected by
`if (ir-i+1 >= j-l)`) is at least as long as the subrange the loop
continues with immediately (`continuedRange`, the other side): the
smaller of the two sides produced by the partition — the pivot's
final cell `j - 1` belonging to neither — is never the pushed one. -/
theorem C4_pushed_ge_continued {piv : Int} {l ir fuel : Nat}
    {f f' : Nat → Int} {i j i' j' : Nat}
    (h : scanLoop piv l ir fuel f i j = some (f', i', j')) :
    rlen (continuedRange l ir i' j') ≤ rlen (pushedRange l ir i' j') := by
  obtain ⟨h1, h2, h3, h4⟩ := scanLoop_bounds h
  unfold pushedRange continuedRange rlen
  by_cases hb : j' + i' ≤ ir + l + 1
  · rw [if_pos hb, if_pos hb]
    show j' - 1 + 1 - l ≤ ir + 1 - i'
    omega
  · rw [if_neg hb, if_neg hb]
    show ir + 1 - i' ≤ j' - 1 + 1 - l
    omega

theorem C4_pushed_ge_continued_witness :
    rlen (continuedRange 1 11 3 2) ≤ rlen (pushedRange 1 11 3 2) :=
  @C4_pushed_ge_continued 0 1 11 11 scanMem scanMem 2 11 3 2 rfl

/-- C5: for every working subrange `(l, ir)` long enough to be
partitioned (`ir ≥ l + 10`, length ≥ 11), after the median-of-three
step and before the scan: the value at the second position of the
subrange (0-based index `l`, the cell the claim calls `l+1`) equals
the median of the three values originally at the left end `lo = l-1`,
the midpoint `(l+ir)/2 - 1 = ⌊(lo + hi)/2⌋` (last conjunct) and the
right end `hi = ir - 1`; the boundary ordering
`a[lo] ≤ a[l] ≤ a[hi]` holds; those three positions hold a
permutation of the three original values; and no position outside
the four touched cells `{lo, l, mid, hi}` is modified.  The value at
`l` is by definition the pivot `sortStep` hands to the scan. -/
theorem C5_median_of_three (l ir : Nat) (f : Nat → Int) (hl : 1 ≤ l)
    (hir : l + 10 ≤ ir) :
    medianStep f l ir l =
      median3 (f (l - 1)) (f ((l + ir) / 2 - 1)) (f (ir - 1)) ∧
    medianStep f l ir (l - 1) ≤ medianStep f l ir l ∧
    medianStep f l ir l ≤ medianStep f l ir (ir - 1) ∧
    ([medianStep f l ir (l - 1), medianStep f l ir l,
        medianStep f l ir (ir - 1)]).Perm
      [f (l - 1), f ((l + ir) / 2 - 1), f (ir - 1)] ∧
    (∀ k, k ≠ l - 1 → k ≠ l → k ≠ (l + ir) / 2 - 1 → k ≠ ir - 1 →
      medianStep f l ir k = f k) ∧
    (l + ir) / 2 - 1 = (l - 1 + (ir - 1)) / 2 := by
  obtain ⟨m1, m2, m3, m4, m5, m6, m7⟩ := medianStep_spec f l ir hl hir
  exact ⟨m3, m1, m2, m4, m6, by omega⟩

theorem C5_median_of_three_witness :
    1 ≤ 1 ∧ 1 + 10 ≤ 11 ∧
    medianStep sampleMem 1 11 1 =
      median3 (sampleMem 0) (sampleMem 5) (sampleMem 10) :=
  ⟨le_refl 1, by omega,
    (C5_median_of_three 1 11 sampleMem (by omega) (by omega)).1⟩

/-- C6: on any working subrange `(l, ir)` entering the partition
branch (`ir ≥ l + 10`) the partition scan over the median-prepared
memory succeeds.  `upScanGo`/`downScanGo` return `none` exactly when
the next read would leave the 0-based subrange `[l-1, ir-1]` (the up
cursor reading past `ir - 1`, the down cursor reading below `l - 1`),
so the `some` result certifies every cursor read is in bounds; the
frame conjunct certifies every swap performed by the scan writes only
inside `[l+1, ir-2] ⊆ [l-1, ir-1]`; and the final cursor bounds place
the two pivot-placement writes of `sortStep` (cells `l` and `j' - 1`)
inside the subrange as well. -/
theorem C6_scan_in_bounds (l ir : Nat) (f : Nat → Int) (hl : 1 ≤ l)
    (hir : l + 10 ≤ ir) :
    ∃ f' i' j',
      scanLoop (medianStep f l ir l) l ir ir (medianStep f l ir)
        (l + 1) ir = some (f', i', j') ∧
      l + 1 ≤ j' ∧ j' < i' ∧ i' ≤ ir ∧
      (∀ k, k < l + 1 ∨ ir - 1 ≤ k → f' k = medianStep f l ir k) ∧
      l - 1 ≤ l ∧ l ≤ ir - 1 ∧ l - 1 ≤ j' - 1 ∧ j' - 1 ≤ ir - 1 := by
  obtain ⟨m1, m2, m3, m4, m5, m6, m7⟩ := medianStep_spec f l ir hl hir
  obtain ⟨f', i', j', hscan, hB1, hB2, hB3, hB4, hZ1, hZ2, hZ3, hPl,
      hFr, hPerm⟩ :=
    @scanLoop_spec (medianStep f l ir l) l ir
      ir (medianStep f l ir) (l + 1) ir (le_refl ir) (le_refl (l + 1))
      (by omega) (by omega) (le_refl ir) (by omega)
      (fun k hk1 hk2 => by
        have hkl : k = l := by omega
        rw [hkl])
      (fun k hk1 hk2 => by
        have hkir : k = ir - 1 := by omega
        rw [hkir]
        exact m2)
      rfl m1
  exact ⟨f', i', j', hscan, hB1, hB2, hB4, hFr, by omega, by omega,
    by omega, by omega⟩

theorem C6_scan_in_bounds_witness :
    1 ≤ 1 ∧ 1 + 10 ≤ 11 ∧
    (scanLoop (medianStep sampleMem 1 11 1) 1 11 11
      (medianStep sampleMem 1 11) 2 11).isSome = true := by
  refine ⟨le_refl 1, by omega, ?_⟩
  obtain ⟨f', i', j', h, -⟩ :=
    C6_scan_in_bounds 1 11 sampleMem (by omega) (by omega)
  rw [h]
  rfl

/-- C7: `insertion_sort(n, arr)` — stated for the generic form
`insertion_sortK key` of which the C function on `int` is the
instance `key = id` (`insertion_sort n b f = insertion_sortK id n b
f`), so that stability is visible on tagged elements: for every `n`
and base `b` it sorts the range `[b, b+n)` in place into
non-descending key order, the resulting range is a permutation of the
input range, nothing outside the range changes, and the sort is
stable — for every key value `c` the subsequence of elements whose
key equals `c` is exactly the input subsequence, because each element
is shifted leftward only past strictly greater predecessors. -/
theorem C7_insertion_sort_stable {α : Type*} (key : α → Int)
    (n b : Nat) (f : Nat → α) :
    (∀ i j, b ≤ i → i ≤ j → j < b + n →
      key (insertion_sortK key n b f i) ≤
        key (insertion_sortK key n b f j)) ∧
    (sliceLen (insertion_sortK key n b f) b n).Perm (sliceLen f b n) ∧
    (∀ k, k < b ∨ b + n ≤ k → insertion_sortK key n b f k = f k) ∧
    (∀ c : Int,
      (sliceLen (insertion_sortK key n b f) b n).filter
        (fun x => decide (key x = c)) =
      (sliceLen f b n).filter (fun x => decide (key x = c))) := by
  obtain ⟨h1, h2⟩ := insertion_sortK_spec key n b f
  refine ⟨?_, ?_, h2, ?_⟩
  · have hs : SortedK key (sliceLen (insertion_sortK key n b f) b n) := by
      rw [h1]
      exact sortedK_insSortL key _
    exact sortedK_pointwise hs
  · rw [h1]
    exact insSortL_perm key _
  · intro c
    rw [h1, filter_insSortL]

/-- C8: `sort(n, arr)` terminates on every finite input — in
particular on all-equal arrays and on long runs of duplicates — and
returns a memory.  Fuel `n + 1` outer-loop iterations always suffice
and no scan faults: the strict `<`/`>` comparisons make both scan
cursors advance every inner-loop iteration (`upScan`/`downScan`
always return a cursor strictly beyond its start, `upScan_bounds` /
`downScan_lt`), so the partition shrinks every round.  The partition
stack of the model is unbounded, matching the claim's premise of a
stack with sufficient capacity for the logarithmic depth. -/
theorem C8_sort_terminates (n : Nat) (f : Nat → Int) :
    ∃ g, sort n f = some g := by
  obtain ⟨g, h, -⟩ := sort_spec n f
  exact ⟨g, h⟩

/-- C9: for `n = 0` and `n = 1`, `sort(n, arr)` is a no-op and not a
crash: the very first step of the outer loop takes the insertion
branch with the stack still empty (so no partition-stack push or pop
is ever performed — the subrange with `ir ≤ l` is treated as already
sorted and never pushed or pivoted) and terminates with the memory
unchanged at every index: `sort` returns the input memory itself. -/
theorem C9_small_input_noop (n : Nat) (f : Nat → Int) (h : n ≤ 1) :
    sortStep (initState n f) = .done f ∧ sort n f = some f := by
  have hins0 : insertion_sort 0 0 f = f := by
    unfold insertion_sort insertion_sortK
    rw [insOuter, if_neg (by omega)]
  have hins1 : insertion_sort 1 0 f = f := by
    unfold insertion_sort insertion_sortK
    rw [insOuter, if_neg (by omega)]
  interval_cases n
  · constructor
    · show sortStep ⟨f, 1, 0, []⟩ = .done f
      rw [sortStep_ins_nil f 1 0 (by decide)]
      show StepRes.done (insertion_sort 0 0 f) = StepRes.done f
      rw [hins0]
    · show run 1 ⟨f, 1, 0, []⟩ = some f
      rw [run_done (sortStep_ins_nil f 1 0 (by decide))]
      show some (insertion_sort 0 0 f) = some f
      rw [hins0]
  · constructor
    · show sortStep ⟨f, 1, 1, []⟩ = .done f
      rw [sortStep_ins_nil f 1 1 (by decide)]
      show StepRes.done (insertion_sort 1 0 f) = StepRes.done f
      rw [hins1]
    · show run 2 ⟨f, 1, 1, []⟩ = some f
      rw [run_done (sortStep_ins_nil f 1 1 (by decide))]
      show some (insertion_sort 1 0 f) = some f
      rw [hins1]

theorem C9_small_input_noop_witness :
    1 ≤ 1 ∧ (sortStep (initState 1 sampleMem) = .done sampleMem ∧
      sort 1 sampleMem = some sampleMem) :=
  ⟨le_refl 1, C9_small_input_noop 1 sampleMem (le_refl 1)⟩

/-- C10: for every input length `1 ≤ n ≤ 2²⁴` and every input
ordering, however adversarial, every reachable state of `sort` holds
at most `⌈log₂ n⌉ ≤ 24` pairs on the partition stack.  In the C
layout (`stackp` starts at `&stack[0]` and is advanced by 2 before a
pair is stored at `stackp[-1]`, `stackp[0]`), the `m`-th stacked pair
(`1 ≤ m ≤ 24`) occupies slots `2m - 1` and `2m`, so every store
through the stack pointer lands in slots `1 .. 2·24 = 48`: strictly
inside the 50-slot array `stack[NSTACK]` (`48 < NSTACK = 50`, and
slot 0 is never written), hence the unchecked push can never overflow
at these sizes. -/
theorem C10_stack_within_NSTACK (n : Nat) (f : Nat → Int)
    (s : SortState) (hn1 : 1 ≤ n) (hn : n ≤ 2 ^ 24)
    (h : Reaches (initState n f) s) :
    s.stk.length ≤ 24 ∧ 2 * s.stk.length ≤ 48 ∧ 48 < NSTACK := by
  have hb := stack_pairs_le_clog hn1 h
  have hc : Nat.clog 2 n ≤ 24 :=
    (Nat.le_pow_iff_clog_le one_lt_two).mp hn
  refine ⟨by omega, by omega, by decide⟩

theorem C10_stack_within_NSTACK_witness :
    1 ≤ 1 ∧ 1 ≤ 2 ^ 24 ∧
    ((initState 1 sampleMem).stk.length ≤ 24 ∧
      2 * (initState 1 sampleMem).stk.length ≤ 48 ∧ 48 < NSTACK) :=
  ⟨le_refl 1, by norm_num,
    C10_stack_within_NSTACK 1 sampleMem (initState 1 sampleMem)
      (le_refl 1) (by norm_num) Relation.ReflTransGen.refl⟩

end Claims

end PeqQsort
